import Mathlib

/-!
# Verification of the pidcalib2 binned-efficiency core

A shallow embedding of the numeric core of `pidcalib2`
(`src/pidcalib2/utils.py` and `src/pidcalib2/binning.py`), together with
theorems settling the specification claims about it.

Floating-point convention used throughout: IEEE-754 double values are
modelled by `NFloat`, an inductive type with a NaN value, two signed
infinities and finite values carried as exact rationals.  The special-value
structure (NaN propagation, signed infinities, division by zero, the domain
of `sqrt`) follows IEEE-754 exactly; rounding of finite arithmetic is
abstracted away by computing finite results exactly in `ℚ`.  The finite
value of the square root is irrelevant to every claim proved here, so the
square-root primitive takes the finite evaluator as an explicit parameter
`s : ℚ → ℚ` and all theorems hold for every `s`.
-/

namespace PidCalib

/-- Model of an IEEE-754 double: NaN, signed infinities (`inf true` is
`-inf`, `inf false` is `+inf`), or a finite value carried exactly. -/
inductive NFloat where
  | nan : NFloat
  | inf : Bool → NFloat
  | fin : ℚ → NFloat
deriving DecidableEq, Repr

namespace NFloat

/-- IEEE addition. -/
def fadd : NFloat → NFloat → NFloat
  | nan, _ => nan
  | _, nan => nan
  | inf s, inf t => if s = t then inf s else nan
  | inf s, fin _ => inf s
  | fin _, inf t => inf t
  | fin a, fin b => fin (a + b)

/-- IEEE negation. -/
def fneg : NFloat → NFloat
  | nan => nan
  | inf s => inf (!s)
  | fin a => fin (-a)

/-- IEEE subtraction, `a - b = a + (-b)`. -/
def fsub (a b : NFloat) : NFloat := fadd a (fneg b)

/-- IEEE multiplication: `inf * 0` is NaN, otherwise infinities obey the
sign rule. -/
def fmul : NFloat → NFloat → NFloat
  | nan, _ => nan
  | _, nan => nan
  | inf s, inf t => inf (xor s t)
  | inf s, fin b => if b = 0 then nan else inf (xor s (decide (b < 0)))
  | fin a, inf t => if a = 0 then nan else inf (xor (decide (a < 0)) t)
  | fin a, fin b => fin (a * b)

/-- IEEE division: `x / 0` is a signed infinity for finite nonzero `x`,
`0 / 0` and `inf / inf` are NaN, `finite / inf` is zero. -/
def fdiv : NFloat → NFloat → NFloat
  | nan, _ => nan
  | _, nan => nan
  | inf _, inf _ => nan
  | inf s, fin b => inf (xor s (decide (b < 0)))
  | fin _, inf _ => fin 0
  | fin a, fin b =>
    if b = 0 then (if a = 0 then nan else inf (decide (a < 0)))
    else fin (a / b)

/-- IEEE absolute value. -/
def fabs : NFloat → NFloat
  | nan => nan
  | inf _ => inf false
  | fin a => fin |a|

/-- IEEE square root, parametrized by the finite evaluator `s` (the claims
never depend on the finite value of a square root): NaN for negative
inputs and `-inf`, `+inf` for `+inf`. -/
def fsqrt (s : ℚ → ℚ) : NFloat → NFloat
  | nan => nan
  | inf b => if b then nan else inf false
  | fin a => if a < 0 then nan else fin (s a)

/-- Squaring, as written `x ** 2` in the source. -/
def fsq (a : NFloat) : NFloat := fmul a a

@[simp] theorem fadd_nan (a : NFloat) : fadd a nan = nan := by
  cases a <;> rfl

@[simp] theorem nan_fadd (a : NFloat) : fadd nan a = nan := by
  cases a <;> rfl

@[simp] theorem fmul_nan (a : NFloat) : fmul a nan = nan := by
  cases a <;> rfl

@[simp] theorem nan_fmul (a : NFloat) : fmul nan a = nan := by
  cases a <;> rfl

/-- Multiplication by the float one is the identity. -/
theorem fmul_one (a : NFloat) : fmul a (fin 1) = a := by
  cases a with
  | nan => rfl
  | inf s => simp [fmul, show ¬(1 : ℚ) < 0 by norm_num]
  | fin q => simp [fmul]

/-- The float one is a left identity for multiplication. -/
theorem one_fmul (a : NFloat) : fmul (fin 1) a = a := by
  cases a with
  | nan => rfl
  | inf s => simp [fmul, show ¬(1 : ℚ) < 0 by norm_num]
  | fin q => simp [fmul]

/-- Sign of an exact product of nonzero rationals, on the `Bool` level. -/
theorem decide_mul_neg {a b : ℚ} (ha : a ≠ 0) (hb : b ≠ 0) :
    decide (a * b < 0) = xor (decide (a < 0)) (decide (b < 0)) := by
  rcases lt_or_gt_of_ne ha with h1 | h1 <;> rcases lt_or_gt_of_ne hb with h2 | h2
  · have hab : ¬a * b < 0 := asymm (mul_pos_of_neg_of_neg h1 h2)
    simp [hab, h1, h2]
  · have hab : a * b < 0 := mul_neg_of_neg_of_pos h1 h2
    simp [hab, h1, asymm h2]
  · have hab : a * b < 0 := mul_neg_of_pos_of_neg h1 h2
    simp [hab, asymm h1, h2]
  · have hab : ¬a * b < 0 := asymm (mul_pos h1 h2)
    simp [hab, asymm h1, asymm h2]

/-- Exact-payload float multiplication is associative (true in the model
because finite arithmetic is exact; NaN and infinity propagation agree on
both sides). -/
theorem fmul_assoc (a b c : NFloat) :
    fmul (fmul a b) c = fmul a (fmul b c) := by
  cases a with
  | nan => simp
  | inf s =>
    cases b with
    | nan => simp
    | inf t =>
      cases c with
      | nan => simp
      | inf u => simp [fmul, Bool.xor_assoc]
      | fin r =>
        by_cases hr : r = 0 <;> simp [fmul, hr, Bool.xor_assoc]
    | fin q =>
      by_cases hq : q = 0
      · cases c with
        | nan => simp [fmul, hq]
        | inf u => simp [fmul, hq]
        | fin r => simp [fmul, hq]
      · cases c with
        | nan => simp [fmul, hq]
        | inf u => simp [fmul, hq, Bool.xor_assoc]
        | fin r =>
          by_cases hr : r = 0
          · simp [fmul, hq, hr]
          · simp [fmul, hq, hr, mul_ne_zero hq hr, decide_mul_neg hq hr,
              Bool.xor_assoc]
  | fin p =>
    cases b with
    | nan => simp
    | inf t =>
      by_cases hp : p = 0
      · cases c with
        | nan => simp [fmul, hp]
        | inf u => simp [fmul, hp]
        | fin r => by_cases hr : r = 0 <;> simp [fmul, hp, hr]
      · cases c with
        | nan => simp [fmul, hp]
        | inf u => simp [fmul, hp, Bool.xor_assoc]
        | fin r =>
          by_cases hr : r = 0
          · simp [fmul, hp, hr]
          · simp [fmul, hp, hr, mul_ne_zero hp hr, decide_mul_neg hp hr,
              Bool.xor_assoc, Bool.xor_comm, Bool.xor_left_comm]
    | fin q =>
      cases c with
      | nan => simp
      | inf u =>
        by_cases hp : p = 0
        · by_cases hq : q = 0 <;> simp [fmul, hp, hq]
        · by_cases hq : q = 0
          · simp [fmul, hp, hq]
          · simp [fmul, hp, hq, mul_ne_zero hp hq, decide_mul_neg hp hq,
              Bool.xor_assoc, Bool.xor_comm, Bool.xor_left_comm]
      | fin r => simp [fmul, mul_assoc]

end NFloat

/-! ## Per-axis bin discretization (`pandas.cut` as used by `add_bin_indices`)

`utils.add_bin_indices` discretizes each reference value with
`pd.cut(column, bins, labels=False, include_lowest=True, right=False,
precision=0)`.  Pandas computes `ids = bins.searchsorted(x, side="right")`
(the number of edges `≤ x` for a sorted edge array), then applies the
`include_lowest` adjustment `ids[x == bins[0]] = 1`, and masks out
`ids == 0` and `ids == len(bins)` as missing.  `precision` only affects
label formatting and is irrelevant with `labels=False`. -/

/-- `searchsorted(side="right")` on a sorted edge list: the number of
leading edges `≤ v`. -/
def countLE (edges : List ℚ) (v : ℚ) : Nat :=
  (edges.takeWhile (fun e => decide (e ≤ v))).length

/-- One-value embedding of the `pd.cut` call in `add_bin_indices`:
`some i` is the integer bin label, `none` the missing (NaN) label. -/
def pdCut (edges : List ℚ) (v : ℚ) : Option Nat :=
  let ids0 := countLE edges v
  let ids := if edges.head? = some v then 1 else ids0
  if ids = 0 ∨ ids = edges.length then none else some (ids - 1)

/-- Bin edges are strictly increasing (pandas rejects duplicate edges). -/
def StrictEdges (edges : List ℚ) : Prop := edges.Pairwise (· < ·)

instance (edges : List ℚ) : Decidable (StrictEdges edges) := by
  unfold StrictEdges; infer_instance

theorem countLE_nil (v : ℚ) : countLE [] v = 0 := rfl

theorem countLE_cons_of_le {e v : ℚ} (es : List ℚ) (h : e ≤ v) :
    countLE (e :: es) v = countLE es v + 1 := by
  simp [countLE, List.takeWhile_cons, h]

theorem countLE_cons_of_gt {e v : ℚ} (es : List ℚ) (h : ¬ e ≤ v) :
    countLE (e :: es) v = 0 := by
  simp [countLE, List.takeWhile_cons, h]

theorem countLE_le_length (edges : List ℚ) (v : ℚ) :
    countLE edges v ≤ edges.length := by
  induction edges with
  | nil => simp [countLE_nil]
  | cons e es ih =>
    by_cases h : e ≤ v
    · rw [countLE_cons_of_le es h]; simpa using ih
    · rw [countLE_cons_of_gt es h]; simp

/-- On a strictly sorted edge list, the edges `≤ v` are exactly the first
`countLE edges v` of them. -/
theorem getD_le_iff_lt_countLE (edges : List ℚ) (v : ℚ)
    (hs : StrictEdges edges) :
    ∀ j, j < edges.length → (edges.getD j 0 ≤ v ↔ j < countLE edges v) := by
  induction edges with
  | nil => intro j hj; simp at hj
  | cons e es ih =>
    rw [StrictEdges, List.pairwise_cons] at hs
    intro j hj
    by_cases he : e ≤ v
    · have hc : countLE (e :: es) v = countLE es v + 1 := countLE_cons_of_le es he
      cases j with
      | zero => simpa [hc] using he
      | succ j =>
        have hj' : j < es.length := by simpa using hj
        have := ih hs.2 j hj'
        simpa [hc, Nat.succ_lt_succ_iff] using this
    · have hc : countLE (e :: es) v = 0 := countLE_cons_of_gt es he
      cases j with
      | zero => simpa [hc] using he
      | succ j =>
        have hj' : j < es.length := by simpa using hj
        have hmem : es.getD j 0 ∈ es := by
          rw [List.getD_eq_getElem _ _ hj']
          exact List.getElem_mem hj'
        have : ¬ es.getD j 0 ≤ v := fun hle =>
          he (le_trans (le_of_lt (hs.1 _ hmem)) hle)
        simpa [hc] using this

/-- On a strictly sorted edge list, the `include_lowest` adjustment in
`pd.cut` is a no-op: when `v` equals the first edge, `countLE` is already
one. -/
theorem include_lowest_noop (edges : List ℚ) (v : ℚ)
    (hs : StrictEdges edges) (hv : edges.head? = some v) :
    countLE edges v = 1 := by
  cases edges with
  | nil => simp at hv
  | cons e es =>
    rw [StrictEdges, List.pairwise_cons] at hs
    have he : e = v := by simpa using hv
    have h1 : countLE (e :: es) v = countLE es v + 1 :=
      countLE_cons_of_le es he.le
    have h2 : countLE es v = 0 := by
      cases es with
      | nil => simp [countLE_nil]
      | cons f fs =>
        have : ¬ f ≤ v := by
          have := hs.1 f (by simp)
          simpa [he] using not_le_of_lt this
        exact countLE_cons_of_gt fs this
    simp [h1, h2]

/-- Characterization of `pdCut` on strictly sorted edges: label `i` iff
`edges[i] ≤ v < edges[i+1]`, missing iff `v` is below the first edge or at
or above the last edge. -/
theorem pdCut_characterization (edges : List ℚ) (v : ℚ)
    (hs : StrictEdges edges) :
    (∀ i, pdCut edges v = some i ↔
      i + 1 < edges.length ∧ edges.getD i 0 ≤ v ∧ v < edges.getD (i + 1) 0) ∧
    (pdCut edges v = none ↔ countLE edges v = 0 ∨ countLE edges v = edges.length) := by
  have hnoop : (if edges.head? = some v then 1 else countLE edges v)
      = countLE edges v := by
    by_cases h : edges.head? = some v
    · rw [if_pos h, include_lowest_noop edges v hs h]
    · rw [if_neg h]
  have hpd : pdCut edges v =
      if countLE edges v = 0 ∨ countLE edges v = edges.length then none
      else some (countLE edges v - 1) := by
    simp only [pdCut]
    rw [hnoop]
  constructor
  · intro i
    constructor
    · intro h
      rw [hpd] at h
      by_cases hc : countLE edges v = 0 ∨ countLE edges v = edges.length
      · rw [if_pos hc] at h; exact absurd h (by simp)
      · rw [if_neg hc] at h
        push_neg at hc
        have hk : countLE edges v = i + 1 := by
          have := Option.some_injective _ h
          omega
        have hlt : i + 1 < edges.length := by
          have := countLE_le_length edges v
          rcases hc with ⟨_, hne⟩
          omega
        refine ⟨hlt, ?_, ?_⟩
        · exact (getD_le_iff_lt_countLE edges v hs i (by omega)).mpr (by omega)
        · by_contra hle
          push_neg at hle
          have := (getD_le_iff_lt_countLE edges v hs (i + 1) hlt).mp hle
          omega
    · rintro ⟨hlt, hle, hgt⟩
      have h1 : i < countLE edges v :=
        (getD_le_iff_lt_countLE edges v hs i (by omega)).mp hle
      have h2 : ¬ (i + 1 < countLE edges v) := fun hc =>
        absurd ((getD_le_iff_lt_countLE edges v hs (i + 1) hlt).mpr hc)
          (not_le_of_lt hgt)
      have hk : countLE edges v = i + 1 := by omega
      rw [hpd, hk, if_neg (by omega)]
      simp
  · rw [hpd]
    by_cases hc : countLE edges v = 0 ∨ countLE edges v = edges.length
    · rw [if_pos hc]; simpa using hc
    · rw [if_neg hc]; simpa using hc

/-- C1 (amended): for a strictly increasing bin-edge sequence of length at
least 2, the per-axis bin assignment performed by `add_bin_indices`
(via `pd.cut(..., labels=False, include_lowest=True, right=False)`) maps
`v` to bin `i` iff `edges[i] ≤ v < edges[i+1]`; a value equal to the first
edge lands in bin 0 already by this half-open rule, while a value equal to
the LAST edge is out of range (missing index), as is any value below the
first edge or above the last. -/
theorem C1_pdCut_half_open_assignment (edges : List ℚ) (v : ℚ)
    (hs : StrictEdges edges) (hlen : 2 ≤ edges.length) :
    (∀ i, pdCut edges v = some i ↔
      i + 1 < edges.length ∧ edges.getD i 0 ≤ v ∧ v < edges.getD (i + 1) 0) ∧
    (pdCut edges v = none ↔
      v < edges.getD 0 0 ∨ edges.getD (edges.length - 1) 0 ≤ v) := by
  obtain ⟨hsome, hnone⟩ := pdCut_characterization edges v hs
  refine ⟨hsome, ?_⟩
  rw [hnone]
  have hk := countLE_le_length edges v
  have h0 := getD_le_iff_lt_countLE edges v hs 0 (by omega)
  have hl := getD_le_iff_lt_countLE edges v hs (edges.length - 1) (by omega)
  constructor
  · rintro (hz | he)
    · left
      by_contra hge
      push_neg at hge
      have := h0.mp hge
      omega
    · right
      by_contra hlt
      push_neg at hlt
      have := hl.mpr (by omega)
      exact absurd this (not_le_of_lt hlt)
  · rintro (hlo | hhi)
    · left
      by_contra hne
      have := h0.mpr (by omega)
      exact absurd this (not_le_of_lt hlo)
    · right
      have := hl.mp hhi
      omega

/-- C1 counterexample to the claim as stated: with edges `[0, 10, 20, 30]`
a value of `30.0` (the last edge) is assigned a missing index by the code,
not the last bin index 2 as the claim asserts. -/
theorem C1_counterexample :
    pdCut [0, 10, 20, 30] 30 = none ∧
      pdCut [0, 10, 20, 30] (30 : ℚ) ≠ some 2 := by
  constructor
  · decide
  · decide

/-- Witness instantiating `C1_pdCut_half_open_assignment` at edges
`[0, 10, 20, 30]` and `v = 10`. -/
theorem C1_pdCut_half_open_assignment_witness :
    StrictEdges [0, 10, 20, 30] ∧ 2 ≤ ([0, 10, 20, 30] : List ℚ).length ∧
    ((∀ i, pdCut [0, 10, 20, 30] 10 = some i ↔
      i + 1 < ([0, 10, 20, 30] : List ℚ).length ∧
        ([0, 10, 20, 30] : List ℚ).getD i 0 ≤ 10 ∧
        (10 : ℚ) < ([0, 10, 20, 30] : List ℚ).getD (i + 1) 0) ∧
    (pdCut [0, 10, 20, 30] 10 = none ↔
      (10 : ℚ) < ([0, 10, 20, 30] : List ℚ).getD 0 0 ∨
        ([0, 10, 20, 30] : List ℚ).getD (([0, 10, 20, 30] : List ℚ).length - 1) 0 ≤ 10)) :=
  ⟨by decide, by decide,
    C1_pdCut_half_open_assignment [0, 10, 20, 30] 10 (by decide) (by decide)⟩

/-! ## Flat bin index (`np.ravel_multi_index` in `add_bin_indices`)

`add_bin_indices` combines the per-axis indices of each prefix with
`np.ravel_multi_index(per_axis_indices, eff_histo.axes.size)`, the axes
taken in exactly the order stored in the efficiency histogram.  NumPy's C
implementation (C order, `mode="raise"`) checks `0 ≤ idx[k] < dims[k]` and
accumulates `raveled = raveled * dims[k] + idx[k]`. -/

/-- One axis of an efficiency histogram: its metadata name and its bin
edges (`bh.axis.Variable`). -/
structure BinAxis where
  name : List Char
  edges : List ℚ
deriving DecidableEq

/-- `axes.size` of a variable axis in boost-histogram: one bin per
consecutive edge pair. -/
def axisSize (a : BinAxis) : Nat := a.edges.length - 1

/-- NumPy's raveling loop: `raveled = raveled * dims[k] + idx[k]`. -/
def hornerFlat (idx dims : List Nat) : Nat :=
  (idx.zip dims).foldl (fun acc p => acc * p.2 + p.1) 0

/-- `np.ravel_multi_index(idx, dims)` in C order with the default
`mode="raise"` bounds check. -/
def ravelMultiIndex (idx dims : List Nat) : Option Nat :=
  if idx.length = dims.length ∧ (idx.zip dims).all (fun p => decide (p.1 < p.2))
  then some (hornerFlat idx dims) else none

/-- Row-major (C-order) flattening of a multi-dimensional index, written
with explicit strides: `flat = Σ idx[k] * Π_{j>k} dims[j]`.  This is the
specification's mixed-radix encoding. -/
def rowMajorFlat : List Nat → List Nat → Nat
  | i :: is, _ :: ns => i * ns.prod + rowMajorFlat is ns
  | _, _ => 0

/-- Collapse a list of optional values, `none` if any entry is missing
(the NaN-row split in `add_bin_indices`). -/
def allSome {α : Type} : List (Option α) → Option (List α)
  | [] => some []
  | none :: _ => none
  | some a :: rest => (allSome rest).map (a :: ·)

/-- Per-row model of the flat-index computation in `add_bin_indices` for
one prefix: discretize the row's value on every artifact axis (in the
artifact's stored axis order) with `pdCut`, set rows with a missing index
aside (`none`), and ravel complete index tuples. -/
def addBinIndicesRow (axes : List BinAxis) (vals : List ℚ) : Option Nat :=
  match allSome (List.zipWith (fun a v => pdCut a.edges v) axes vals) with
  | none => none
  | some idxs => ravelMultiIndex idxs (axes.map axisSize)

theorem pdCut_lt (edges : List ℚ) (v : ℚ) (i : Nat)
    (h : pdCut edges v = some i) : i < edges.length - 1 := by
  have hk := countLE_le_length edges v
  by_cases hh : edges.head? = some v
  · have hlen1 : 1 ≤ edges.length := by
      cases edges with
      | nil => simp at hh
      | cons e es => simp
    simp only [pdCut, hh, if_pos] at h
    by_cases hc : (1 : Nat) = 0 ∨ 1 = edges.length
    · rw [if_pos hc] at h; exact absurd h (by simp)
    · rw [if_neg hc] at h
      have := Option.some_injective _ h
      omega
  · simp only [pdCut, hh, if_neg, if_false] at h
    by_cases hc : countLE edges v = 0 ∨ countLE edges v = edges.length
    · rw [if_pos hc] at h; exact absurd h (by simp)
    · rw [if_neg hc] at h
      have := Option.some_injective _ h
      omega

theorem allSome_length {α : Type} :
    ∀ (l : List (Option α)) (out : List α), allSome l = some out →
      out.length = l.length := by
  intro l
  induction l with
  | nil =>
    intro out h
    simp only [allSome, Option.some.injEq] at h
    subst h; simp
  | cons o rest ih =>
    intro out h
    cases o with
    | none => simp [allSome] at h
    | some a =>
      simp only [allSome, Option.map_eq_some'] at h
      obtain ⟨tl, htl, rfl⟩ := h
      simp [ih tl htl]

theorem pdCut_bounds_of_allSome :
    ∀ (axes : List BinAxis) (vals : List ℚ) (idxs : List Nat),
      allSome (List.zipWith (fun a v => pdCut a.edges v) axes vals) = some idxs →
      (idxs.zip (axes.map axisSize)).all (fun p => decide (p.1 < p.2)) = true := by
  intro axes
  induction axes with
  | nil =>
    intro vals idxs h
    simp only [List.zipWith_nil_left, allSome, Option.some.injEq] at h
    subst h; simp
  | cons a as ih =>
    intro vals idxs h
    cases vals with
    | nil =>
      simp only [List.zipWith_nil_right, allSome, Option.some.injEq] at h
      subst h; simp
    | cons v vs =>
      simp only [List.zipWith_cons_cons] at h
      cases hpc : pdCut a.edges v with
      | none => rw [hpc] at h; simp [allSome] at h
      | some i =>
        rw [hpc] at h
        simp only [allSome, Option.map_eq_some'] at h
        obtain ⟨tl, htl, rfl⟩ := h
        have hb : i < axisSize a := by
          have := pdCut_lt a.edges v i hpc
          simpa [axisSize] using this
        simpa [hb] using ih vs tl htl

/-- The raveling loop equals strides-based row-major flattening (general
accumulator version). -/
theorem hornerFoldFrom (idx : List Nat) :
    ∀ (dims : List Nat) (acc : Nat), idx.length = dims.length →
      (idx.zip dims).foldl (fun acc p => acc * p.2 + p.1) acc
        = acc * dims.prod + rowMajorFlat idx dims := by
  induction idx with
  | nil =>
    intro dims acc hlen
    cases dims with
    | nil => simp [rowMajorFlat]
    | cons n ns => simp at hlen
  | cons i is ih =>
    intro dims acc hlen
    cases dims with
    | nil => simp at hlen
    | cons n ns =>
      have hlen' : is.length = ns.length := by simpa using hlen
      simp only [List.zip_cons_cons, List.foldl_cons]
      rw [ih ns (acc * n + i) hlen']
      simp [rowMajorFlat, List.prod_cons]
      ring

theorem hornerFlat_eq_rowMajorFlat (idx dims : List Nat)
    (hlen : idx.length = dims.length) :
    hornerFlat idx dims = rowMajorFlat idx dims := by
  simpa [hornerFlat] using hornerFoldFrom idx dims 0 hlen

/-- C3: for a row with complete per-axis indices, the flat index assigned
by `add_bin_indices` is exactly the row-major mixed-radix encoding
`((i0)*n1 + i1)*n2 + i2 ...` of the per-axis indices, with the axis sizes
taken in the artifact's stored axis order. -/
theorem C3_flat_index_row_major (axes : List BinAxis) (vals : List ℚ)
    (idxs : List Nat) (hlen : axes.length = vals.length)
    (hc : allSome (List.zipWith (fun a v => pdCut a.edges v) axes vals)
      = some idxs) :
    addBinIndicesRow axes vals
        = some (hornerFlat idxs (axes.map axisSize)) ∧
      hornerFlat idxs (axes.map axisSize)
        = rowMajorFlat idxs (axes.map axisSize) := by
  have hzlen : (List.zipWith (fun a v => pdCut a.edges v) axes vals).length
      = axes.length := by
    simp [List.length_zipWith, hlen.symm.le, Nat.min_eq_left, hlen]
  have hilen : idxs.length = (axes.map axisSize).length := by
    rw [allSome_length _ idxs hc, hzlen, List.length_map]
  have hb := pdCut_bounds_of_allSome axes vals idxs hc
  constructor
  · simp only [addBinIndicesRow, hc]
    rw [ravelMultiIndex, if_pos ⟨hilen, hb⟩]
  · exact hornerFlat_eq_rowMajorFlat _ _ hilen

/-- Witness instantiating `C3_flat_index_row_major` on a 2-axis artifact
(sizes 3 and 2) at the value pair `(15, 1)`, whose per-axis indices are
`(1, 1)` and whose flat index is `1*2 + 1 = 3`. -/
theorem C3_flat_index_row_major_witness :
    ([⟨['x'], [0, 10, 20, 30]⟩, ⟨['y'], [0, 1, 2]⟩] : List BinAxis).length
        = ([15, 1] : List ℚ).length ∧
    addBinIndicesRow [⟨['x'], [0, 10, 20, 30]⟩, ⟨['y'], [0, 1, 2]⟩] [15, 1]
        = some (hornerFlat [1, 1]
            (([⟨['x'], [0, 10, 20, 30]⟩, ⟨['y'], [0, 1, 2]⟩] : List BinAxis).map axisSize)) ∧
    hornerFlat [1, 1]
        (([⟨['x'], [0, 10, 20, 30]⟩, ⟨['y'], [0, 1, 2]⟩] : List BinAxis).map axisSize)
      = rowMajorFlat [1, 1]
          (([⟨['x'], [0, 10, 20, 30]⟩, ⟨['y'], [0, 1, 2]⟩] : List BinAxis).map axisSize) :=
  ⟨by decide,
    (C3_flat_index_row_major [⟨['x'], [0, 10, 20, 30]⟩, ⟨['y'], [0, 1, 2]⟩]
      [15, 1] [1, 1] (by decide) (by decide)).1,
    (C3_flat_index_row_major [⟨['x'], [0, 10, 20, 30]⟩, ⟨['y'], [0, 1, 2]⟩]
      [15, 1] [1, 1] (by decide) (by decide)).2⟩

/-! ## Binomial uncertainty (`utils.binomial_uncertainty`,
`utils.create_error_histogram`)

The source computes, element-wise over NumPy arrays,
`prob = num_pass / num_total`, `prob_sq = prob ** 2`,
`num_total_sq = num_total ** 2` and returns
`np.sqrt(abs(((1 - 2*prob) * err_pass_sq + err_tot_sq * prob_sq) /
num_total_sq))`. -/

open NFloat

/-- Embedding of `utils.binomial_uncertainty` on one grid cell. -/
def binomialUncertainty (s : ℚ → ℚ) (num_pass num_total err_pass_sq err_tot_sq : NFloat) :
    NFloat :=
  let prob := fdiv num_pass num_total
  let prob_sq := fmul prob prob
  let num_total_sq := fmul num_total num_total
  fsqrt s (fabs (fdiv
    (fadd (fmul (fsub (fin 1) (fmul (fin 2) prob)) err_pass_sq)
      (fmul err_tot_sq prob_sq))
    num_total_sq))

/-- The specification's uncertainty formula,
`sqrt( abs( (1 - 2*(p/t))*ep2 + et2*(p/t)^2 ) / t^2 )` (`abs` applied to
the numerator only). -/
def specBinomialUncertainty (s : ℚ → ℚ) (p t ep2 et2 : NFloat) : NFloat :=
  fsqrt s (fdiv
    (fabs (fadd (fmul (fsub (fin 1) (fmul (fin 2) (fdiv p t))) ep2)
      (fmul et2 (fsq (fdiv p t)))))
    (fmul t t))

/-- The five aligned histograms of a persisted efficiency artifact, as
read back by `ref_calib` (flattened in-range views). -/
structure PrefixHists where
  eff : List NFloat
  passing : List NFloat
  total : List NFloat
  passing_sumw2 : List NFloat
  total_sumw2 : List NFloat
deriving DecidableEq

/-- Element-wise combination of four equally shaped grids. -/
def zipWith4 {α : Type} (f : α → α → α → α → α) :
    List α → List α → List α → List α → List α
  | a :: as, b :: bs, c :: cs, d :: ds =>
    f a b c d :: zipWith4 f as bs cs ds
  | _, _, _, _ => []

/-- Embedding of `utils.create_error_histogram`: the binomial uncertainty
evaluated element-wise over the whole histogram grid. -/
def createErrorHistogram (s : ℚ → ℚ) (h : PrefixHists) : List NFloat :=
  zipWith4 (binomialUncertainty s) h.passing h.total h.passing_sumw2 h.total_sumw2

/-- `t * t` is never below zero, so taking `abs` of the whole quotient (as
the code does) agrees with dividing the absolute numerator by `t^2` (as
the spec writes it). -/
theorem fabs_fdiv_sq (x t : NFloat) :
    fabs (fdiv x (fmul t t)) = fdiv (fabs x) (fmul t t) := by
  cases t with
  | nan => cases x <;> rfl
  | inf s =>
    cases x with
    | nan => rfl
    | inf u => simp [fmul, fdiv, fabs]
    | fin a => simp [fmul, fdiv, fabs]
  | fin q =>
    by_cases hq : q = 0
    · subst hq
      cases x with
      | nan => rfl
      | inf u => simp [fmul, fdiv, fabs]
      | fin a =>
        by_cases ha : a = 0
        · simp [fmul, fdiv, fabs, ha]
        · have habs : ¬ |a| = 0 := by simpa using ha
          have hneg : ¬ |a| < 0 := not_lt.mpr (abs_nonneg a)
          simp [fmul, fdiv, fabs, ha, habs, hneg]
    · have hsq : ¬ q * q = 0 := mul_ne_zero hq hq
      have hsqpos : ¬ q * q < 0 := not_lt.mpr (mul_self_nonneg q)
      cases x with
      | nan => rfl
      | inf u => simp [fmul, fdiv, fabs, hsq, hsqpos]
      | fin a => simp [fmul, fdiv, fabs, hsq, hsqpos, abs_div, abs_of_nonneg (mul_self_nonneg q)]

theorem binomialUncertainty_eq_spec (s : ℚ → ℚ)
    (p t ep2 et2 : NFloat) :
    binomialUncertainty s p t ep2 et2 = specBinomialUncertainty s p t ep2 et2 := by
  simp only [binomialUncertainty, specBinomialUncertainty, fsq]
  rw [fabs_fdiv_sq]

theorem zipWith4_congr {α : Type} (f g : α → α → α → α → α)
    (hfg : ∀ a b c d, f a b c d = g a b c d) :
    ∀ as bs cs ds, zipWith4 f as bs cs ds = zipWith4 g as bs cs ds := by
  intro as
  induction as with
  | nil => intro bs cs ds; cases bs <;> cases cs <;> cases ds <;> rfl
  | cons a as ih =>
    intro bs cs ds
    cases bs with
    | nil => rfl
    | cons b bs =>
      cases cs with
      | nil => rfl
      | cons c cs =>
        cases ds with
        | nil => rfl
        | cons d ds => simp [zipWith4, hfg, ih]

/-- C2 (amended): the uncertainty computed by `binomial_uncertainty`
equals `sqrt( abs( (1 - 2*(p/t))*ep2 + et2*(p/t)^2 ) / t^2 )` for all
inputs, element-wise over whole histogram grids
(`create_error_histogram`); and for `t == 0` the result is NaN — rather
than a raised error or a clamped value — provided the passing count `p`
and the squared-weight sums `ep2`, `et2` are nonnegative (for a negative
`p`, possible with negative sWeights, the result is `+inf` instead, see
the counterexample). -/
theorem C2_binomial_uncertainty (s : ℚ → ℚ) :
    (∀ p t ep2 et2, binomialUncertainty s p t ep2 et2
      = specBinomialUncertainty s p t ep2 et2) ∧
    (∀ h : PrefixHists, createErrorHistogram s h
      = zipWith4 (specBinomialUncertainty s) h.passing h.total
          h.passing_sumw2 h.total_sumw2) ∧
    (∀ a b c : ℚ, 0 ≤ a → 0 ≤ b → 0 ≤ c →
      binomialUncertainty s (fin a) (fin 0) (fin b) (fin c) = nan) := by
  refine ⟨binomialUncertainty_eq_spec s, ?_, ?_⟩
  · intro h
    exact zipWith4_congr _ _ (binomialUncertainty_eq_spec s) _ _ _ _
  · intro a b c ha hb hc
    rcases eq_or_lt_of_le ha with ha0 | hapos
    · simp [binomialUncertainty, fdiv, fmul, fadd, fsub, fneg, fabs, fsqrt, ← ha0]
    · have hane : a ≠ 0 := ne_of_gt hapos
      have hanlt : ¬ a < 0 := not_lt.mpr ha
      rcases eq_or_lt_of_le hb with hb0 | hbpos
      · simp [binomialUncertainty, fdiv, fmul, fadd, fsub, fneg, fabs, fsqrt,
          hane, hanlt, ← hb0,
          (by norm_num : (2 : ℚ) ≠ 0), (by norm_num : ¬ (2 : ℚ) < 0)]
      · have hbne : b ≠ 0 := ne_of_gt hbpos
        have hbnlt : ¬ b < 0 := not_lt.mpr hb
        rcases eq_or_lt_of_le hc with hc0 | hcpos
        · simp [binomialUncertainty, fdiv, fmul, fadd, fsub, fneg, fabs, fsqrt,
            hane, hanlt, hbne, hbnlt, ← hc0,
            (by norm_num : (2 : ℚ) ≠ 0), (by norm_num : ¬ (2 : ℚ) < 0)]
        · have hcne : c ≠ 0 := ne_of_gt hcpos
          have hcnlt : ¬ c < 0 := not_lt.mpr hc
          simp [binomialUncertainty, fdiv, fmul, fadd, fsub, fneg, fabs, fsqrt,
            hane, hanlt, hbne, hbnlt, hcne, hcnlt,
            (by norm_num : (2 : ℚ) ≠ 0), (by norm_num : ¬ (2 : ℚ) < 0)]

/-- C2 counterexample to the "`t == 0` yields NaN" clause as universally
stated: a negative passing count `p = -1` with `t = 0`, `ep2 = 1`,
`et2 = 2` makes the code produce `+inf`, not NaN (both halves of the
formula diverge to `+inf`, so no `inf - inf` cancellation occurs). -/
theorem C2_counterexample :
    binomialUncertainty (fun q => q) (fin (-1)) (fin 0) (fin 1) (fin 2)
        = inf false ∧
      binomialUncertainty (fun q => q) (fin (-1)) (fin 0) (fin 1) (fin 2)
        ≠ nan := by
  constructor
  · decide
  · decide

/-- Witness instantiating `C2_binomial_uncertainty` with the identity
finite square-root evaluator and the NaN clause at `p = 3`, `ep2 = 4`,
`et2 = 5`. -/
theorem C2_binomial_uncertainty_witness :
    (0 : ℚ) ≤ 3 ∧
      binomialUncertainty (fun q => q) (fin 3) (fin 0) (fin 4) (fin 5) = nan :=
  ⟨by norm_num,
    (C2_binomial_uncertainty (fun q => q)).2.2 3 4 5 (by norm_num) (by norm_num)
      (by norm_num)⟩

/-! ## Efficiency histograms (`utils.create_eff_histograms`)

The histogram bundle is a Python dict keyed by strings (`"total"`,
`"total_sumw2"`, `"passing_<cut>"`, `"passing_sumw2_<cut>"`, and derived
`"eff_<cut>"`).  It is modelled as an association list in insertion order,
with first-match lookup, in-place update of an existing key, and
append of a new key — exactly a Python dict with unique keys. -/

/-- Dict keys (Python strings). -/
abbrev Name := List Char

/-- A histogram bundle: insertion-ordered dict of flattened histograms. -/
abbrev Bundle := List (Name × List NFloat)

/-- Dict lookup (first match). -/
def bfind : Bundle → Name → Option (List NFloat)
  | [], _ => none
  | p :: rest, k => if p.1 = k then some p.2 else bfind rest k

/-- Dict assignment `d[k] = v`: overwrite in place, else append. -/
def bset : Bundle → Name → List NFloat → Bundle
  | [], k, v => [(k, v)]
  | p :: rest, k, v =>
    if p.1 = k then (k, v) :: rest else p :: bset rest k v

def totalKey : Name := ['t', 'o', 't', 'a', 'l']

def passPfx : Name := ['p', 'a', 's', 's', 'i', 'n', 'g', '_']

def sumw2Pfx : Name :=
  ['p', 'a', 's', 's', 'i', 'n', 'g', '_', 's', 'u', 'm', 'w', '2', '_']

def effPfx : Name := ['e', 'f', 'f', '_']

/-- `name.replace("passing_", "eff_", 1)` for a key that starts with
`"passing_"` (the first occurrence is then the 8-character head). -/
def effKey (k : Name) : Name := effPfx ++ k.drop 8

/-- The loop guard in `create_eff_histograms`:
`name.startswith("passing_") and not name.startswith("passing_sumw2_")`. -/
def passingGuard (k : Name) : Bool :=
  passPfx.isPrefixOf k && !(sumw2Pfx.isPrefixOf k)

/-- `hist[hist == 0] = nan`: replace exact-zero cells with NaN. -/
def nanSubst (h : List NFloat) : List NFloat :=
  h.map (fun x => if x = fin 0 then nan else x)

/-- Number of exact-zero cells (`np.count_nonzero(view == 0)`). -/
def zeroBins (h : List NFloat) : Nat :=
  (h.filter (fun x => decide (x = fin 0))).length

/-- The guarded zero-to-NaN substitution performed on the total histogram
before any division. -/
def substTotal (h : List NFloat) : List NFloat :=
  if zeroBins h ≠ 0 then nanSubst h else h

/-- One iteration of the `for name in list(hists)` loop: for a passing
(non-sumw2) key, store the element-wise division of the current passing
histogram by the current total histogram under the derived `eff_` key. -/
def effStep (b : Bundle) (k : Name) : Bundle :=
  if passingGuard k then
    match bfind b k, bfind b totalKey with
    | some pass, some tot => bset b (effKey k) (List.zipWith fdiv pass tot)
    | _, _ => b
  else b

/-- Embedding of `utils.create_eff_histograms`: substitute NaN for zero
total cells (in place), then derive an `eff_` histogram for every passing
cut, iterating over a snapshot of the keys; `none` models the `KeyError`
when no `"total"` entry exists. -/
def createEffHistograms (b : Bundle) : Option Bundle :=
  match bfind b totalKey with
  | none => none
  | some tot =>
    let b1 := bset b totalKey (substTotal tot)
    some ((b1.map Prod.fst).foldl effStep b1)

theorem bfind_bset_self (b : Bundle) (k : Name) (v : List NFloat) :
    bfind (bset b k v) k = some v := by
  induction b with
  | nil => simp [bset, bfind]
  | cons p rest ih =>
    by_cases hp : p.1 = k
    · simp [bset, hp, bfind]
    · simp [bset, hp, bfind, ih]

theorem bfind_bset_ne (b : Bundle) (k q : Name) (v : List NFloat)
    (hne : q ≠ k) : bfind (bset b k v) q = bfind b q := by
  induction b with
  | nil => simp [bset, bfind, Ne.symm hne]
  | cons p rest ih =>
    by_cases hp : p.1 = k
    · simp [bset, hp, bfind, hne, Ne.symm hne, ih]
    · by_cases hq : p.1 = q
      · simp [bset, hp, bfind, hq, hne]
      · simp [bset, hp, bfind, hq, ih]

/-- Overwriting a first-match entry with its current value is a no-op. -/
theorem bset_noop (b : Bundle) (k : Name) (v : List NFloat)
    (h : bfind b k = some v) : bset b k v = b := by
  induction b with
  | nil => simp [bfind] at h
  | cons p rest ih =>
    by_cases hp : p.1 = k
    · simp only [bfind, hp, if_pos, Option.some.injEq] at h
      simp only [bset, hp, if_pos]
      rw [← hp, ← h]
    · simp only [bfind, hp, if_neg, if_false] at h
      simp [bset, hp, ih h]

theorem bset_keys (b : Bundle) (k : Name) (v : List NFloat) :
    (bset b k v).map Prod.fst = b.map Prod.fst ∨
      (bset b k v).map Prod.fst = b.map Prod.fst ++ [k] := by
  induction b with
  | nil => right; simp [bset]
  | cons p rest ih =>
    by_cases hp : p.1 = k
    · left; simp [bset, hp]
    · rcases ih with h | h
      · left; simp [bset, hp, h]
      · right; simp [bset, hp, h]

theorem bset_keys_mem (b : Bundle) (k : Name) (v : List NFloat)
    (hmem : k ∈ b.map Prod.fst) :
    (bset b k v).map Prod.fst = b.map Prod.fst := by
  induction b with
  | nil => simp at hmem
  | cons p rest ih =>
    by_cases hp : p.1 = k
    · simp [bset, hp]
    · have hmem' : k ∈ rest.map Prod.fst := by
        simp only [List.map_cons, List.mem_cons] at hmem
        rcases hmem with h | h
        · exact absurd h.symm hp
        · exact h
      simp [bset, hp, ih hmem']

theorem bfind_eq_none_iff (b : Bundle) (k : Name) :
    bfind b k = none ↔ k ∉ b.map Prod.fst := by
  induction b with
  | nil => simp [bfind]
  | cons p rest ih =>
    by_cases hp : p.1 = k
    · simp [bfind, hp]
    · simp [bfind, hp, ih, Ne.symm hp]

theorem mem_of_bfind_some {b : Bundle} {k : Name} {v : List NFloat}
    (h : bfind b k = some v) : k ∈ b.map Prod.fst := by
  by_contra hmem
  rw [← bfind_eq_none_iff] at hmem
  rw [h] at hmem
  exact absurd hmem (by simp)

theorem bfind_some_of_mem {b : Bundle} {k : Name}
    (h : k ∈ b.map Prod.fst) : ∃ v, bfind b k = some v := by
  cases hb : bfind b k with
  | none => exact absurd ((bfind_eq_none_iff b k).mp hb) (not_not.mpr h)
  | some v => exact ⟨v, rfl⟩

theorem passPfx_exists {k : Name} (h : passPfx.isPrefixOf k = true) :
    ∃ t, k = passPfx ++ t := by
  obtain ⟨t, ht⟩ := List.isPrefixOf_iff_prefix.mp h
  exact ⟨t, ht.symm⟩

theorem guard_passPfx {k : Name} (h : passingGuard k = true) :
    passPfx.isPrefixOf k = true := by
  rw [passingGuard, Bool.and_eq_true] at h
  exact h.1

theorem effPfx_isPrefixOf_effKey (k : Name) :
    effPfx.isPrefixOf (effKey k) = true :=
  List.isPrefixOf_iff_prefix.mpr ⟨k.drop 8, rfl⟩

theorem passKey_not_effPfx {k : Name} (h : passPfx.isPrefixOf k = true) :
    effPfx.isPrefixOf k = false := by
  obtain ⟨t, rfl⟩ := passPfx_exists h
  rfl

theorem totalKey_not_effPfx : effPfx.isPrefixOf totalKey = false := rfl

theorem passKey_ne_totalKey {k : Name} (h : passPfx.isPrefixOf k = true) :
    k ≠ totalKey := by
  obtain ⟨t, rfl⟩ := passPfx_exists h
  intro hc
  exact absurd (congrArg List.head? hc) (by simp [passPfx, totalKey])

theorem effKey_inj {k k' : Name} (hk : passPfx.isPrefixOf k = true)
    (hk' : passPfx.isPrefixOf k' = true) (h : effKey k = effKey k') :
    k = k' := by
  obtain ⟨t, rfl⟩ := passPfx_exists hk
  obtain ⟨t', rfl⟩ := passPfx_exists hk'
  have h8 : passPfx.length = 8 := rfl
  rw [effKey, effKey, List.drop_left' h8, List.drop_left' h8] at h
  rw [List.append_cancel_left h]

theorem bfind_effStep_not_eff (b : Bundle) (k q : Name)
    (hq : effPfx.isPrefixOf q = false) :
    bfind (effStep b k) q = bfind b q := by
  rw [effStep]
  by_cases hg : passingGuard k
  · rw [if_pos hg]
    cases hpk : bfind b k with
    | none => rfl
    | some pass =>
      cases htk : bfind b totalKey with
      | none => rfl
      | some tot =>
        have hne : q ≠ effKey k := fun hc => by
          rw [hc, effPfx_isPrefixOf_effKey k] at hq
          exact absurd hq (by simp)
        exact bfind_bset_ne b (effKey k) q _ hne
  · rw [if_neg hg]

theorem bfind_fold_not_eff (ks : List Name) (b : Bundle) (q : Name)
    (hq : effPfx.isPrefixOf q = false) :
    bfind (ks.foldl effStep b) q = bfind b q := by
  induction ks generalizing b with
  | nil => rfl
  | cons k rest ih =>
    rw [List.foldl_cons, ih (effStep b k), bfind_effStep_not_eff b k q hq]

theorem bfind_effStep_eff_ne (b : Bundle) (k k₀ : Name)
    (hk₀ : passPfx.isPrefixOf k₀ = true) (hne : k ≠ k₀) :
    bfind (effStep b k) (effKey k₀) = bfind b (effKey k₀) := by
  rw [effStep]
  by_cases hg : passingGuard k
  · rw [if_pos hg]
    cases hpk : bfind b k with
    | none => rfl
    | some pass =>
      cases htk : bfind b totalKey with
      | none => rfl
      | some tot =>
        have hne' : effKey k₀ ≠ effKey k := fun hc =>
          hne (effKey_inj (guard_passPfx hg) hk₀ hc.symm)
        exact bfind_bset_ne b (effKey k) (effKey k₀) _ hne'
  · rw [if_neg hg]

theorem bfind_fold_eff_preserved (ks : List Name) (b : Bundle) (k₀ : Name)
    (hk₀ : passPfx.isPrefixOf k₀ = true) (hall : ∀ k ∈ ks, k ≠ k₀) :
    bfind (ks.foldl effStep b) (effKey k₀) = bfind b (effKey k₀) := by
  induction ks generalizing b with
  | nil => rfl
  | cons k rest ih =>
    rw [List.foldl_cons,
      ih (effStep b k) (fun k' hk' => hall k' (List.mem_cons_of_mem k hk')),
      bfind_effStep_eff_ne b k k₀ hk₀ (hall k (List.mem_cons_self k rest))]

/-- Main fold lemma: after the loop, every passing key's derived `eff_`
entry holds the element-wise division of its (unchanged) passing
histogram by the (unchanged) total histogram. -/
theorem bfind_fold_eff (ks : List Name) (b : Bundle) (k₀ : Name)
    (pass tot : List NFloat) (hg : passingGuard k₀ = true)
    (hmem : k₀ ∈ ks) (hnd : ks.Nodup)
    (hp : bfind b k₀ = some pass) (ht : bfind b totalKey = some tot) :
    bfind (ks.foldl effStep b) (effKey k₀)
      = some (List.zipWith fdiv pass tot) := by
  induction ks generalizing b with
  | nil => simp at hmem
  | cons k rest ih =>
    rw [List.nodup_cons] at hnd
    rw [List.foldl_cons]
    by_cases hkk : k = k₀
    · subst hkk
      have hstep : effStep b k = bset b (effKey k) (List.zipWith fdiv pass tot) := by
        rw [effStep, if_pos hg, hp, ht]
      rw [hstep,
        bfind_fold_eff_preserved rest _ k (guard_passPfx hg)
          (fun k' hk' hc => hnd.1 (hc ▸ hk')),
        bfind_bset_self]
    · have hmem' : k₀ ∈ rest := by
        cases hmem with
        | head => exact absurd rfl hkk
        | tail _ h => exact h
      have hp' : bfind (effStep b k) k₀ = some pass := by
        rw [bfind_effStep_not_eff b k k₀
          (passKey_not_effPfx (guard_passPfx hg)), hp]
      have ht' : bfind (effStep b k) totalKey = some tot := by
        rw [bfind_effStep_not_eff b k totalKey totalKey_not_effPfx, ht]
      exact ih _ hmem' hnd.2 hp' ht'

/-- Any key of the loop's result is an original key or a derived
`eff_` key. -/
theorem fold_keys_subset (ks : List Name) (b : Bundle) (q : Name)
    (hq : q ∈ (ks.foldl effStep b).map Prod.fst) :
    q ∈ b.map Prod.fst ∨ effPfx.isPrefixOf q = true := by
  induction ks generalizing b with
  | nil => exact Or.inl hq
  | cons k rest ih =>
    rw [List.foldl_cons] at hq
    rcases ih (effStep b k) hq with h | h
    · rw [effStep] at h
      by_cases hg : passingGuard k
      · rw [if_pos hg] at h
        cases hpk : bfind b k with
        | none => rw [hpk] at h; exact Or.inl h
        | some pass =>
          cases htk : bfind b totalKey with
          | none => rw [hpk, htk] at h; exact Or.inl h
          | some tot =>
            rw [hpk, htk] at h
            rcases bset_keys b (effKey k) (List.zipWith fdiv pass tot) with hs | hs
            · rw [hs] at h; exact Or.inl h
            · rw [hs] at h
              rcases List.mem_append.mp h with h' | h'
              · exact Or.inl h'
              · right
                have : q = effKey k := by simpa using h'
                rw [this]
                exact effPfx_isPrefixOf_effKey k
      · rw [if_neg hg] at h; exact Or.inl h
    · exact Or.inr h

@[simp] theorem fdiv_nan (a : NFloat) : fdiv a nan = nan := by
  cases a <;> rfl

theorem substTotal_length (h : List NFloat) :
    (substTotal h).length = h.length := by
  rw [substTotal]
  by_cases hz : zeroBins h ≠ 0 <;> simp [hz, nanSubst]

/-- The guarded substitution, cell-wise: zero cells become NaN, nonzero
cells are untouched (when no cell is zero the guard skips the pass, with
the same outcome). -/
theorem substTotal_getD (h : List NFloat) (i : Nat) (hi : i < h.length) :
    (substTotal h).getD i nan
      = if h.getD i nan = fin 0 then nan else h.getD i nan := by
  rw [substTotal]
  by_cases hz : zeroBins h ≠ 0
  · rw [if_pos hz, nanSubst]
    have hi' : i < (h.map (fun x => if x = fin 0 then nan else x)).length := by
      simpa using hi
    rw [List.getD_eq_getElem _ _ hi', List.getElem_map,
      List.getD_eq_getElem _ _ hi]
  · rw [if_neg hz]
    push_neg at hz
    have hnil : h.filter (fun x => decide (x = fin 0)) = [] :=
      List.length_eq_zero.mp hz
    have hmem : h.getD i nan ∈ h := by
      rw [List.getD_eq_getElem _ _ hi]
      exact List.getElem_mem hi
    have hne : ¬ h.getD i nan = fin 0 := by
      have := List.filter_eq_nil_iff.mp hnil _ hmem
      simpa using this
    rw [if_neg hne]

/-- C5: in `create_eff_histograms`, every zero cell of the total histogram
is replaced by NaN before the element-wise division, so the derived
efficiency of such a cell is NaN (`p / NaN = NaN`, never zero, infinity or
an exception — the function returns normally); every cell with nonzero
total receives exactly `passing / total`. -/
theorem C5_eff_histogram_zero_total (b b' : Bundle) (k : Name)
    (tot pass : List NFloat)
    (htot : bfind b totalKey = some tot)
    (hk : bfind b k = some pass)
    (hg : passingGuard k = true)
    (hnodup : (b.map Prod.fst).Nodup)
    (hres : createEffHistograms b = some b') :
    bfind b' (effKey k) = some (List.zipWith fdiv pass (substTotal tot)) ∧
    ∀ i, i < tot.length → i < pass.length →
      (tot.getD i nan = fin 0 →
        (List.zipWith fdiv pass (substTotal tot)).getD i nan = nan) ∧
      (tot.getD i nan ≠ fin 0 →
        (List.zipWith fdiv pass (substTotal tot)).getD i nan
          = fdiv (pass.getD i nan) (tot.getD i nan)) := by
  simp only [createEffHistograms, htot, Option.some.injEq] at hres
  have hkeys : (bset b totalKey (substTotal tot)).map Prod.fst
      = b.map Prod.fst :=
    bset_keys_mem b totalKey (substTotal tot) (mem_of_bfind_some htot)
  have hmem : k ∈ (bset b totalKey (substTotal tot)).map Prod.fst := by
    rw [hkeys]; exact mem_of_bfind_some hk
  have hnd : ((bset b totalKey (substTotal tot)).map Prod.fst).Nodup := by
    rw [hkeys]; exact hnodup
  have hp1 : bfind (bset b totalKey (substTotal tot)) k = some pass := by
    rw [bfind_bset_ne b totalKey k _ (passKey_ne_totalKey (guard_passPfx hg))]
    exact hk
  have ht1 : bfind (bset b totalKey (substTotal tot)) totalKey
      = some (substTotal tot) := bfind_bset_self b totalKey (substTotal tot)
  constructor
  · rw [← hres]
    exact bfind_fold_eff _ _ k pass (substTotal tot) hg hmem hnd hp1 ht1
  · intro i hi hip
    have hzl : i < (List.zipWith fdiv pass (substTotal tot)).length := by
      rw [List.length_zipWith, substTotal_length]
      omega
    have hst : i < (substTotal tot).length := by rw [substTotal_length]; exact hi
    have hcell : (List.zipWith fdiv pass (substTotal tot)).getD i nan
        = fdiv (pass.getD i nan) ((substTotal tot).getD i nan) := by
      rw [List.getD_eq_getElem _ _ hzl, List.getElem_zipWith,
        List.getD_eq_getElem _ _ hip, List.getD_eq_getElem _ _ hst]
    constructor
    · intro hzero
      rw [hcell, substTotal_getD tot i hi, if_pos hzero, fdiv_nan]
    · intro hnz
      rw [hcell, substTotal_getD tot i hi, if_neg hnz]

/-- Witness instantiating `C5_eff_histogram_zero_total` on a concrete
two-cell bundle whose total histogram is `[0, 2]` and passing histogram
`[1, 1]`. -/
theorem C5_eff_histogram_zero_total_witness :
    bfind [(totalKey, [fin 0, fin 2]),
        (passPfx ++ ['c'], [fin 1, fin 1])] totalKey = some [fin 0, fin 2] ∧
    bfind [(totalKey, [fin 0, fin 2]),
        (passPfx ++ ['c'], [fin 1, fin 1])] (passPfx ++ ['c'])
      = some [fin 1, fin 1] ∧
    bfind [(totalKey, [NFloat.nan, fin 2]),
        (passPfx ++ ['c'], [fin 1, fin 1]),
        (effKey (passPfx ++ ['c']), [NFloat.nan, fin (1 / 2)])]
        (effKey (passPfx ++ ['c']))
      = some (List.zipWith fdiv [fin 1, fin 1] (substTotal [fin 0, fin 2])) :=
  ⟨by decide, by decide,
    (C5_eff_histogram_zero_total
      [(totalKey, [fin 0, fin 2]), (passPfx ++ ['c'], [fin 1, fin 1])]
      [(totalKey, [NFloat.nan, fin 2]), (passPfx ++ ['c'], [fin 1, fin 1]),
        (effKey (passPfx ++ ['c']), [NFloat.nan, fin (1 / 2)])]
      (passPfx ++ ['c']) [fin 0, fin 2] [fin 1, fin 1]
      (by decide) (by decide) (by decide) (by decide) (by rfl)).1⟩

theorem zeroBins_substTotal (h : List NFloat) :
    zeroBins (substTotal h) = 0 := by
  rw [substTotal]
  by_cases hz : zeroBins h ≠ 0
  · rw [if_pos hz, zeroBins, List.length_eq_zero, List.filter_eq_nil_iff]
    intro a ha
    rw [nanSubst] at ha
    obtain ⟨x, hx, rfl⟩ := List.mem_map.mp ha
    by_cases hx0 : x = fin 0 <;> simp [hx0]
  · rw [if_neg hz]
    push_neg at hz
    exact hz

/-- After one zero-to-NaN pass no cell equals zero, so a second pass
changes nothing. -/
theorem substTotal_idem (h : List NFloat) :
    substTotal (substTotal h) = substTotal h := by
  conv_lhs => rw [substTotal]
  rw [if_neg (by rw [zeroBins_substTotal]; exact fun hc => hc rfl)]

/-- If every passing key's `eff_` entry already holds the recomputed
division, the loop rewrites each entry with its current value and the
bundle is unchanged. -/
theorem fold_noop (ks : List Name) (b : Bundle)
    (h : ∀ k ∈ ks, passingGuard k = true →
      ∃ pass tot, bfind b k = some pass ∧ bfind b totalKey = some tot ∧
        bfind b (effKey k) = some (List.zipWith fdiv pass tot)) :
    ks.foldl effStep b = b := by
  induction ks with
  | nil => rfl
  | cons k rest ih =>
    have hstep : effStep b k = b := by
      rw [effStep]
      by_cases hg : passingGuard k
      · rw [if_pos hg]
        obtain ⟨pass, tot, hp, ht, he⟩ := h k (List.mem_cons_self k rest) hg
        rw [hp, ht]
        exact bset_noop _ _ _ he
      · rw [if_neg hg]
    rw [List.foldl_cons, hstep]
    exact ih (fun k' hk' => h k' (List.mem_cons_of_mem k hk'))

/-- C7: deriving efficiency histograms is idempotent — applying
`create_eff_histograms` to the bundle it produced yields the very same
bundle (bit-identical efficiency values): the zero-to-NaN substitution of
the first pass finds no zero cells the second time, and every `eff_`
histogram is recomputed from the unchanged passing and total histograms. -/
theorem C7_createEffHistograms_idempotent (b b' : Bundle)
    (hnodup : (b.map Prod.fst).Nodup)
    (hres : createEffHistograms b = some b') :
    createEffHistograms b' = some b' := by
  cases htot : bfind b totalKey with
  | none => rw [createEffHistograms, htot] at hres; exact absurd hres (by simp)
  | some tot =>
    simp only [createEffHistograms, htot, Option.some.injEq] at hres
    have hkeys1 : (bset b totalKey (substTotal tot)).map Prod.fst
        = b.map Prod.fst :=
      bset_keys_mem b totalKey (substTotal tot) (mem_of_bfind_some htot)
    have hnd1 : ((bset b totalKey (substTotal tot)).map Prod.fst).Nodup := by
      rw [hkeys1]; exact hnodup
    have ht1 : bfind (bset b totalKey (substTotal tot)) totalKey
        = some (substTotal tot) := bfind_bset_self _ _ _
    have htb' : bfind b' totalKey = some (substTotal tot) := by
      rw [← hres, bfind_fold_not_eff _ _ _ totalKey_not_effPfx, ht1]
    simp only [createEffHistograms, htb', Option.some.injEq]
    have hbset : bset b' totalKey (substTotal (substTotal tot)) = b' := by
      rw [substTotal_idem]
      exact bset_noop _ _ _ htb'
    rw [hbset]
    apply fold_noop
    intro k hk hg
    have hkb : k ∈ b.map Prod.fst := by
      rw [← hres] at hk
      rcases fold_keys_subset _ _ k hk with h | h
      · rwa [hkeys1] at h
      · rw [passKey_not_effPfx (guard_passPfx hg)] at h
        exact absurd h (by simp)
    obtain ⟨pass, hpass⟩ := bfind_some_of_mem hkb
    have hkt : k ≠ totalKey := passKey_ne_totalKey (guard_passPfx hg)
    have hp1 : bfind (bset b totalKey (substTotal tot)) k = some pass := by
      rw [bfind_bset_ne _ _ _ _ hkt]; exact hpass
    have hpb' : bfind b' k = some pass := by
      rw [← hres,
        bfind_fold_not_eff _ _ _ (passKey_not_effPfx (guard_passPfx hg))]
      exact hp1
    have heb' : bfind b' (effKey k)
        = some (List.zipWith fdiv pass (substTotal tot)) := by
      rw [← hres]
      refine bfind_fold_eff _ _ k pass (substTotal tot) hg ?_ hnd1 hp1 ht1
      rw [hkeys1]; exact hkb
    exact ⟨pass, substTotal tot, hpb', htb', heb'⟩

/-- Witness instantiating `C7_createEffHistograms_idempotent` on the
concrete bundle with total `[0, 2]` and one passing cut `[1, 1]`. -/
theorem C7_createEffHistograms_idempotent_witness :
    (([(totalKey, [fin 0, fin 2]),
        (passPfx ++ ['c'], [fin 1, fin 1])] : Bundle).map Prod.fst).Nodup ∧
    createEffHistograms
        [(totalKey, [NFloat.nan, fin 2]), (passPfx ++ ['c'], [fin 1, fin 1]),
          (effKey (passPfx ++ ['c']), [NFloat.nan, fin (1 / 2)])]
      = some
          [(totalKey, [NFloat.nan, fin 2]), (passPfx ++ ['c'], [fin 1, fin 1]),
            (effKey (passPfx ++ ['c']), [NFloat.nan, fin (1 / 2)])] :=
  ⟨by decide,
    C7_createEffHistograms_idempotent
      [(totalKey, [fin 0, fin 2]), (passPfx ++ ['c'], [fin 1, fin 1])]
      [(totalKey, [NFloat.nan, fin 2]), (passPfx ++ ['c'], [fin 1, fin 1]),
        (effKey (passPfx ++ ['c']), [NFloat.nan, fin (1 / 2)])]
      (by decide) (by rfl)⟩

/-! ## Frame effect of `create_eff_histograms` (C9)

The Python function mutates its argument: the caller's dict object itself
receives the NaN-substituted total and the new `eff_` entries, and the
returned dict is that same object.  Mutable dict objects are modelled by a
store (a list of bundles) addressed by references (indices); the function
takes a reference, writes through it, and returns the same reference. -/

/-- Reference-level model of `create_eff_histograms`: read the bundle the
caller's reference points to, update it in place, return the same
reference. -/
def createEffHistogramsRef (r : Nat) (σ : List Bundle) :
    Option (Nat × List Bundle) :=
  match σ[r]? with
  | none => none
  | some b =>
    match createEffHistograms b with
    | none => none
    | some b' => some (r, σ.set r b')

/-- C9: `create_eff_histograms` mutates its argument in place — the
returned dictionary is the same object that was passed in (same
reference), the caller's total histogram now has NaN where its zero cells
were, the derived `eff_` entries are present in that same object, and no
other object in the store is touched. -/
theorem C9_createEffHistograms_in_place (σ : List Bundle) (r : Nat)
    (b b' : Bundle) (tot : List NFloat)
    (hr : σ[r]? = some b)
    (hb : createEffHistograms b = some b')
    (htot : bfind b totalKey = some tot)
    (hnodup : (b.map Prod.fst).Nodup) :
    createEffHistogramsRef r σ = some (r, σ.set r b') ∧
    (σ.set r b')[r]? = some b' ∧
    (∀ r', r' ≠ r → (σ.set r b')[r']? = σ[r']?) ∧
    bfind b' totalKey = some (substTotal tot) ∧
    (∀ k pass, bfind b k = some pass → passingGuard k = true →
      bfind b' (effKey k) = some (List.zipWith fdiv pass (substTotal tot))) := by
  have hlt : r < σ.length := by
    by_contra hge
    rw [List.getElem?_eq_none (by omega)] at hr
    exact absurd hr (by simp)
  simp only [createEffHistograms, htot, Option.some.injEq] at hb
  have hkeys1 : (bset b totalKey (substTotal tot)).map Prod.fst
      = b.map Prod.fst :=
    bset_keys_mem b totalKey (substTotal tot) (mem_of_bfind_some htot)
  have hnd1 : ((bset b totalKey (substTotal tot)).map Prod.fst).Nodup := by
    rw [hkeys1]; exact hnodup
  have ht1 : bfind (bset b totalKey (substTotal tot)) totalKey
      = some (substTotal tot) := bfind_bset_self _ _ _
  refine ⟨?_, ?_, ?_, ?_, ?_⟩
  · rw [createEffHistogramsRef, hr]
    simp only [createEffHistograms, htot, hb]
  · exact List.getElem?_set_self (by simpa using hlt)
  · intro r' hne
    exact List.getElem?_set_ne (fun hc => hne hc.symm)
  · rw [← hb, bfind_fold_not_eff _ _ _ totalKey_not_effPfx, ht1]
  · intro k pass hpass hg
    have hp1 : bfind (bset b totalKey (substTotal tot)) k = some pass := by
      rw [bfind_bset_ne _ _ _ _ (passKey_ne_totalKey (guard_passPfx hg))]
      exact hpass
    rw [← hb]
    refine bfind_fold_eff _ _ k pass (substTotal tot) hg ?_ hnd1 hp1 ht1
    rw [hkeys1]
    exact mem_of_bfind_some hpass

/-- Witness instantiating `C9_createEffHistograms_in_place` on a
single-object store holding the concrete bundle of the C5 witness. -/
theorem C9_createEffHistograms_in_place_witness :
    ([[(totalKey, [fin 0, fin 2]),
        (passPfx ++ ['c'], [fin 1, fin 1])]] : List Bundle)[0]?
        = some [(totalKey, [fin 0, fin 2]), (passPfx ++ ['c'], [fin 1, fin 1])] ∧
    createEffHistogramsRef 0
        [[(totalKey, [fin 0, fin 2]), (passPfx ++ ['c'], [fin 1, fin 1])]]
      = some (0,
          ([[(totalKey, [fin 0, fin 2]),
              (passPfx ++ ['c'], [fin 1, fin 1])]] : List Bundle).set 0
            [(totalKey, [NFloat.nan, fin 2]), (passPfx ++ ['c'], [fin 1, fin 1]),
              (effKey (passPfx ++ ['c']), [NFloat.nan, fin (1 / 2)])]) :=
  ⟨by decide,
    (C9_createEffHistograms_in_place
      [[(totalKey, [fin 0, fin 2]), (passPfx ++ ['c'], [fin 1, fin 1])]] 0
      [(totalKey, [fin 0, fin 2]), (passPfx ++ ['c'], [fin 1, fin 1])]
      [(totalKey, [NFloat.nan, fin 2]), (passPfx ++ ['c'], [fin 1, fin 1]),
        (effKey (passPfx ++ ['c']), [NFloat.nan, fin (1 / 2)])]
      [fin 0, fin 2]
      (by decide) (by rfl) (by decide) (by decide)).1⟩

/-! ## Histogram-dict addition (`utils.add_hists`, C10)

`add_hists` takes `all_hists[0]` (an `IndexError` on an empty list), then
for every later dict executes `total_hists[name] += hist_dict[name]` for
each key of the first dict — mutating the first dict in place and reading
the others — and returns the first dict.  A missing key in a later dict is
a `KeyError` (`none` below). -/

/-- One `total_hists[name] += hist_dict[name]` statement. -/
def addKeyStep (d : Bundle) (acc : Option Bundle) (k : Name) : Option Bundle :=
  acc.bind (fun cur =>
    match bfind cur k, bfind d k with
    | some h, some h' => some (bset cur k (List.zipWith fadd h h'))
    | _, _ => none)

/-- The inner `for name in total_hists` loop for one later dict. -/
def addOneDict (t d : Bundle) : Option Bundle :=
  (t.map Prod.fst).foldl (addKeyStep d) (some t)

/-- The outer `for hist_dict in all_hists[1:]` loop, writing through the
first dict's reference `r0`. -/
def addHistsLoop : List Nat → Nat → List Bundle → Option (List Bundle)
  | [], _, σ => some σ
  | r :: rest, r0, σ =>
    match σ[r0]?, σ[r]? with
    | some t, some d =>
      match addOneDict t d with
      | none => none
      | some t' => addHistsLoop rest r0 (σ.set r0 t')
    | _, _ => none

/-- Embedding of `utils.add_hists` over references into a store of dict
objects: `none` models the `IndexError` on an empty input list. -/
def addHists (refs : List Nat) (σ : List Bundle) :
    Option (Nat × List Bundle) :=
  match refs with
  | [] => none
  | r0 :: rest =>
    match addHistsLoop rest r0 σ with
    | none => none
    | some σ' => some (r0, σ')

/-- The element-wise running sum over the later dicts' histograms at key
`k`, seeded with the first dict's histogram. -/
def sumAt (σ : List Bundle) (k : Name) (h0 : List NFloat)
    (rs : List Nat) : List NFloat :=
  rs.foldl (fun acc r =>
    List.zipWith fadd acc ((σ[r]?.bind (fun d => bfind d k)).getD [])) h0

theorem addKeyFold_spec (d : Bundle) (ks : List Name) :
    ∀ b : Bundle, ks.Nodup →
      (∀ k ∈ ks, (∃ h, bfind b k = some h) ∧ (∃ h', bfind d k = some h')) →
      ∃ b', ks.foldl (addKeyStep d) (some b) = some b' ∧
        b'.map Prod.fst = b.map Prod.fst ∧
        (∀ k, k ∉ ks → bfind b' k = bfind b k) ∧
        (∀ k h0, k ∈ ks → bfind b k = some h0 →
          bfind b' k = some (List.zipWith fadd h0 ((bfind d k).getD []))) := by
  induction ks with
  | nil =>
    intro b _ _
    exact ⟨b, rfl, rfl, fun _ _ => rfl, fun k h0 hk => absurd hk (by simp)⟩
  | cons k rest ih =>
    intro b hnd hks
    rw [List.nodup_cons] at hnd
    obtain ⟨⟨h, hh⟩, ⟨h', hh'⟩⟩ := hks k (List.mem_cons_self k rest)
    have hstep : addKeyStep d (some b) k
        = some (bset b k (List.zipWith fadd h h')) := by
      rw [addKeyStep, Option.some_bind, hh, hh']
    have hks' : ∀ k' ∈ rest,
        (∃ g, bfind (bset b k (List.zipWith fadd h h')) k' = some g) ∧
          (∃ g', bfind d k' = some g') := by
      intro k' hk'
      have hne : k' ≠ k := fun hc => hnd.1 (hc ▸ hk')
      rw [bfind_bset_ne _ _ _ _ hne]
      exact hks k' (List.mem_cons_of_mem k hk')
    obtain ⟨b', hb', hkeys, huntouched, hvals⟩ :=
      ih (bset b k (List.zipWith fadd h h')) hnd.2 hks'
    refine ⟨b', ?_, ?_, ?_, ?_⟩
    · rw [List.foldl_cons, hstep, hb']
    · rw [hkeys, bset_keys_mem b k _ (mem_of_bfind_some hh)]
    · intro q hq
      rw [huntouched q (fun hc => hq (List.mem_cons_of_mem k hc)),
        bfind_bset_ne _ _ _ _
          (fun hc => hq (by rw [hc]; exact List.mem_cons_self k rest))]
    · intro q h0 hqmem hq0
      rcases List.mem_cons.mp hqmem with rfl | hqrest
      · rw [hq0] at hh
        have hh0 : h0 = h := Option.some_injective _ hh
        subst hh0
        rw [huntouched q hnd.1, bfind_bset_self, hh']
        simp
      · have hne : q ≠ k := fun hc => hnd.1 (hc ▸ hqrest)
        refine hvals q h0 hqrest ?_
        rw [bfind_bset_ne _ _ _ _ hne]
        exact hq0

theorem addOneDict_spec (t d : Bundle)
    (hnd : (t.map Prod.fst).Nodup)
    (hcov : ∀ k ∈ t.map Prod.fst, ∃ h', bfind d k = some h') :
    ∃ t', addOneDict t d = some t' ∧
      t'.map Prod.fst = t.map Prod.fst ∧
      ∀ k h0, bfind t k = some h0 →
        bfind t' k = some (List.zipWith fadd h0 ((bfind d k).getD [])) := by
  have hks : ∀ k ∈ t.map Prod.fst,
      (∃ h, bfind t k = some h) ∧ (∃ h', bfind d k = some h') :=
    fun k hk => ⟨bfind_some_of_mem hk, hcov k hk⟩
  obtain ⟨t', ht', hkeys, _, hvals⟩ := addKeyFold_spec d (t.map Prod.fst) t hnd hks
  exact ⟨t', ht', hkeys,
    fun k h0 hk0 => hvals k h0 (mem_of_bfind_some hk0) hk0⟩

theorem sumAt_set_ne (rs : List Nat) :
    ∀ (σ : List Bundle) (r0 : Nat) (x : Bundle) (k : Name) (h : List NFloat),
      (∀ r ∈ rs, r ≠ r0) →
      sumAt (σ.set r0 x) k h rs = sumAt σ k h rs := by
  induction rs with
  | nil => intro σ r0 x k h _; rfl
  | cons r rest ih =>
    intro σ r0 x k h hall
    rw [sumAt, List.foldl_cons,
      List.getElem?_set_ne (fun hc => hall r (List.mem_cons_self r rest) hc.symm)]
    exact ih σ r0 x k _ (fun r' hr' => hall r' (List.mem_cons_of_mem r hr'))

theorem addHistsLoop_spec (rest : List Nat) :
    ∀ (σ : List Bundle) (r0 : Nat) (t0 : Bundle),
      σ[r0]? = some t0 →
      (t0.map Prod.fst).Nodup →
      (∀ r ∈ rest, r ≠ r0 ∧ ∃ d, σ[r]? = some d ∧
        ∀ k ∈ t0.map Prod.fst, ∃ h', bfind d k = some h') →
      ∃ σ', addHistsLoop rest r0 σ = some σ' ∧
        (∀ r', r' ≠ r0 → σ'[r']? = σ[r']?) ∧
        ∃ T, σ'[r0]? = some T ∧ T.map Prod.fst = t0.map Prod.fst ∧
          ∀ k h0, bfind t0 k = some h0 →
            bfind T k = some (sumAt σ k h0 rest) := by
  induction rest with
  | nil =>
    intro σ r0 t0 hr0 _ _
    exact ⟨σ, rfl, fun _ _ => rfl, t0, hr0, rfl, fun k h0 h => by rw [h]; rfl⟩
  | cons r rest' ih =>
    intro σ r0 t0 hr0 hnd hrest
    obtain ⟨hne, d, hd, hcov⟩ := hrest r (List.mem_cons_self r rest')
    obtain ⟨t', ht', hkeys', hvals'⟩ := addOneDict_spec t0 d hnd hcov
    have hlt : r0 < σ.length := by
      by_contra hge
      rw [List.getElem?_eq_none (by omega)] at hr0
      exact absurd hr0 (by simp)
    have hr0' : (σ.set r0 t')[r0]? = some t' :=
      List.getElem?_set_self (by simpa using hlt)
    have hnd' : (t'.map Prod.fst).Nodup := by rw [hkeys']; exact hnd
    have hrest' : ∀ r' ∈ rest', r' ≠ r0 ∧ ∃ d', (σ.set r0 t')[r']? = some d' ∧
        ∀ k ∈ t'.map Prod.fst, ∃ h', bfind d' k = some h' := by
      intro r' hr'
      obtain ⟨hne', d', hd', hcov'⟩ := hrest r' (List.mem_cons_of_mem r hr')
      refine ⟨hne', d', ?_, ?_⟩
      · rw [List.getElem?_set_ne (fun hc => hne' hc.symm)]
        exact hd'
      · rw [hkeys']; exact hcov'
    obtain ⟨σ'', hloop, huntouched, T, hT, hTkeys, hTvals⟩ :=
      ih (σ.set r0 t') r0 t' hr0' hnd' hrest'
    refine ⟨σ'', ?_, ?_, T, hT, ?_, ?_⟩
    · simp only [addHistsLoop, hr0, hd, ht']
      exact hloop
    · intro r' hr'
      rw [huntouched r' hr',
        List.getElem?_set_ne (fun hc => hr' hc.symm)]
    · rw [hTkeys, hkeys']
    · intro k h0 hk0
      have hval' := hvals' k h0 hk0
      have hTv := hTvals k _ hval'
      have hsum : sumAt σ k h0 (r :: rest')
          = sumAt σ k (List.zipWith fadd h0 ((bfind d k).getD [])) rest' := by
        rw [sumAt, List.foldl_cons, hd, Option.some_bind]
        rfl
      rw [hTv, hsum, sumAt_set_ne rest' σ r0 t' k _
        (fun r' hr' => (hrest r' (List.mem_cons_of_mem r hr')).1)]

/-- C10: `add_hists` returns the very same dict object as the first
element of its input (the same reference `r0`), with each of that dict's
histograms now holding the element-wise running sum over all dicts in the
list; every other dict object in the store is left unchanged; and on an
empty list it fails with an `IndexError` (`none`). -/
theorem C10_addHists_in_place (σ : List Bundle) (r0 : Nat)
    (rest : List Nat) (t0 : Bundle)
    (hr0 : σ[r0]? = some t0)
    (hnd : (t0.map Prod.fst).Nodup)
    (hrest : ∀ r ∈ rest, r ≠ r0 ∧ ∃ d, σ[r]? = some d ∧
      ∀ k ∈ t0.map Prod.fst, ∃ h', bfind d k = some h') :
    (∃ σ', addHists (r0 :: rest) σ = some (r0, σ') ∧
      (∀ r', r' ≠ r0 → σ'[r']? = σ[r']?) ∧
      ∃ T, σ'[r0]? = some T ∧ T.map Prod.fst = t0.map Prod.fst ∧
        ∀ k h0, bfind t0 k = some h0 →
          bfind T k = some (sumAt σ k h0 rest)) ∧
    addHists [] σ = none := by
  obtain ⟨σ', hloop, huntouched, T, hT, hTkeys, hTvals⟩ :=
    addHistsLoop_spec rest σ r0 t0 hr0 hnd hrest
  refine ⟨⟨σ', ?_, huntouched, T, hT, hTkeys, hTvals⟩, rfl⟩
  rw [addHists, hloop]

/-- Witness instantiating `C10_addHists_in_place` on a two-object store:
the first dict (total `[1, 2]`) absorbs the second (`[10, 20]`). -/
theorem C10_addHists_in_place_witness :
    ([[(totalKey, [fin 1, fin 2])], [(totalKey, [fin 10, fin 20])]] :
        List Bundle)[0]? = some [(totalKey, [fin 1, fin 2])] ∧
    ∃ σ', addHists [0, 1]
        [[(totalKey, [fin 1, fin 2])], [(totalKey, [fin 10, fin 20])]]
        = some (0, σ') ∧
      (∀ r', r' ≠ 0 →
        σ'[r']? = ([[(totalKey, [fin 1, fin 2])],
          [(totalKey, [fin 10, fin 20])]] : List Bundle)[r']?) ∧
      ∃ T, σ'[0]? = some T ∧
        T.map Prod.fst
          = ([(totalKey, [fin 1, fin 2])] : Bundle).map Prod.fst ∧
        ∀ k h0, bfind [(totalKey, [fin 1, fin 2])] k = some h0 →
          bfind T k = some (sumAt
            [[(totalKey, [fin 1, fin 2])], [(totalKey, [fin 10, fin 20])]]
            k h0 [1]) :=
  ⟨by decide,
    (C10_addHists_in_place
      [[(totalKey, [fin 1, fin 2])], [(totalKey, [fin 10, fin 20])]] 0 [1]
      [(totalKey, [fin 1, fin 2])] (by decide) (by decide)
      (by
        intro r hr
        simp only [List.mem_singleton] at hr
        subst hr
        refine ⟨by decide, [(totalKey, [fin 10, fin 20])], by decide, ?_⟩
        intro k hk
        simp only [List.map_cons, List.map_nil, List.mem_singleton] at hk
        subst hk
        exact ⟨[fin 10, fin 20], by decide⟩)).1⟩

/-! ## Per-event efficiencies (`utils.add_efficiencies`, C4 and C6)

`add_efficiencies` splits the table into rows with a NaN in some column
(out of the PID binning) and complete rows; only complete rows get
efficiency columns.  For each prefix it gathers
`efficiency_table[flat_bin]` and `error_table[flat_bin]` (flattened
views, O(1) `np.take`), accumulates `PIDCalibEff` multiplicatively from 1
and `PIDCalibRelErr2` additively from 0 with `(err_i/eff_i)**2`, then sets
`PIDCalibErr = sqrt(RelErr2)` and multiplies it by every per-prefix
efficiency.  The two parts are re-concatenated and sorted by the original
index.  The default `compatibility=False` path is modelled (no NaN→0
substitution).  In-range flat indices are assumed (`np.take` raises on
out-of-range indices, which cannot arise from `add_bin_indices`). -/

/-- An input row: its pandas index and the per-prefix
`<prefix>_PIDCalibBin` columns (`none` = NaN, out of binning range). -/
structure RefRow where
  idx : Nat
  bins : List (Option Nat)
deriving DecidableEq

/-- An output row: the input columns plus the per-prefix efficiency and
uncertainty columns and the combined pair, all missing (NaN) for rows that
were out of the binning range. -/
structure OutRow where
  idx : Nat
  bins : List (Option Nat)
  effs : Option (List NFloat)
  errs : Option (List NFloat)
  eff : Option NFloat
  err : Option NFloat
deriving DecidableEq

/-- Per-prefix `(efficiency_table, error_table)` pairs, one per prefix, in
prefix order (each a flattened `view()` of the artifact histograms). -/
abbrev EffTables := List (List NFloat × List NFloat)

/-- Efficiency assignment for one complete row. -/
def processRow (s : ℚ → ℚ) (tables : EffTables) (r : RefRow) : OutRow :=
  let bs := r.bins.map (fun o => o.getD 0)
  let effs := List.zipWith (fun tb b => tb.1.getD b nan) tables bs
  let errs := List.zipWith (fun tb b => tb.2.getD b nan) tables bs
  let relerr2 :=
    (List.zipWith (fun er ef => fsq (fdiv er ef)) errs effs).foldl fadd (fin 0)
  { idx := r.idx, bins := r.bins, effs := some effs, errs := some errs,
    eff := some (effs.foldl fmul (fin 1)),
    err := some (effs.foldl fmul (fsqrt s relerr2)) }

/-- An out-of-range row is preserved with missing efficiency columns. -/
def nanOutRow (r : RefRow) : OutRow :=
  { idx := r.idx, bins := r.bins, effs := none, errs := none,
    eff := none, err := none }

/-- Insertion into a list kept sorted by the original index. -/
def insertByIdx (r : OutRow) : List OutRow → List OutRow
  | [] => [r]
  | x :: xs => if r.idx ≤ x.idx then r :: x :: xs else x :: insertByIdx r xs

/-- `sort_index()` after the concatenation: with distinct indices any
comparison sort returns the rows ordered by index. -/
def sortByIdx : List OutRow → List OutRow
  | [] => []
  | x :: xs => insertByIdx x (sortByIdx xs)

/-- Whether a row has a missing (NaN) column: `df_new.isna().any(axis=1)`. -/
def rowHasNan (r : RefRow) : Bool := r.bins.any Option.isNone

/-- Embedding of `utils.add_efficiencies` (default `compatibility=False`):
the returned table and the reported out-of-range fraction
(`len(df_nan.index) / len(df_new.index)`, computed after re-merging). -/
def addEfficiencies (s : ℚ → ℚ) (tables : EffTables) (df : List RefRow) :
    List OutRow × ℚ :=
  let dfNan := df.filter rowHasNan
  let dfValid := df.filter (fun r => !rowHasNan r)
  let merged := sortByIdx (dfValid.map (processRow s tables)
    ++ dfNan.map nanOutRow)
  (merged, (dfNan.length : ℚ) / (merged.length : ℚ))

/-- Peeling the accumulator out of the sequential float product (exact in
the model because `fmul` is associative there). -/
theorem foldl_fmul_from (l : List NFloat) :
    ∀ x : NFloat, l.foldl fmul x = fmul x (l.foldl fmul (fin 1)) := by
  induction l with
  | nil => intro x; simp [fmul_one]
  | cons a as ih =>
    intro x
    rw [List.foldl_cons, List.foldl_cons, ih (fmul x a), ih (fmul (fin 1) a),
      one_fmul, fmul_assoc]

theorem insertByIdx_perm (r : OutRow) (l : List OutRow) :
    List.Perm (insertByIdx r l) (r :: l) := by
  induction l with
  | nil => rfl
  | cons x xs ih =>
    rw [insertByIdx]
    by_cases h : r.idx ≤ x.idx
    · rw [if_pos h]
    · rw [if_neg h]
      exact ((ih.cons x).trans (List.Perm.swap r x xs)).symm.symm

theorem sortByIdx_perm (l : List OutRow) : List.Perm (sortByIdx l) l := by
  induction l with
  | nil => rfl
  | cons x xs ih =>
    rw [sortByIdx]
    exact (insertByIdx_perm x (sortByIdx xs)).trans (ih.cons x)

theorem mem_insertByIdx {y r : OutRow} {l : List OutRow}
    (h : y ∈ insertByIdx r l) : y = r ∨ y ∈ l := by
  rcases List.mem_cons.mp ((insertByIdx_perm r l).mem_iff.mp h) with h' | h'
  · exact Or.inl h'
  · exact Or.inr h'

theorem insertByIdx_sorted (r : OutRow) (l : List OutRow)
    (h : l.Pairwise (fun a b => a.idx ≤ b.idx)) :
    (insertByIdx r l).Pairwise (fun a b => a.idx ≤ b.idx) := by
  induction l with
  | nil => simp [insertByIdx]
  | cons x xs ih =>
    rw [List.pairwise_cons] at h
    rw [insertByIdx]
    by_cases hle : r.idx ≤ x.idx
    · rw [if_pos hle]
      refine List.Pairwise.cons ?_ (List.Pairwise.cons h.1 h.2)
      intro y hy
      rcases List.mem_cons.mp hy with rfl | hy'
      · exact hle
      · exact le_trans hle (h.1 y hy')
    · rw [if_neg hle]
      refine List.Pairwise.cons ?_ (ih h.2)
      intro y hy
      rcases mem_insertByIdx hy with rfl | hy'
      · exact le_of_not_le hle
      · exact h.1 y hy'

theorem sortByIdx_sorted (l : List OutRow) :
    (sortByIdx l).Pairwise (fun a b => a.idx ≤ b.idx) := by
  induction l with
  | nil => exact List.Pairwise.nil
  | cons x xs ih => exact insertByIdx_sorted x (sortByIdx xs) ih

theorem outRow_idx_if (s : ℚ → ℚ) (tables : EffTables) (r : RefRow) :
    ((if rowHasNan r then nanOutRow r
      else processRow s tables r) : OutRow).idx = r.idx := by
  by_cases h : rowHasNan r <;> simp [h, nanOutRow, processRow]

/-- The split / compute / re-merge pipeline of `add_efficiencies` returns
exactly the input rows in their original order, each extended with its
efficiency columns (missing for out-of-range rows). -/
theorem addEfficiencies_table_eq (s : ℚ → ℚ) (tables : EffTables)
    (df : List RefRow) (hsorted : df.Pairwise (fun a b => a.idx < b.idx)) :
    (addEfficiencies s tables df).1
      = df.map (fun r =>
          if rowHasNan r then nanOutRow r else processRow s tables r) := by
  have hvalid : (df.filter (fun r => !rowHasNan r)).map (processRow s tables)
      = (df.filter (fun r => !rowHasNan r)).map (fun r =>
          if rowHasNan r then nanOutRow r else processRow s tables r) := by
    refine (List.map_congr_left ?_).symm
    intro r hr
    have := List.of_mem_filter hr
    rw [Bool.not_eq_eq_eq_not, Bool.not_true] at this
    rw [if_neg (by rw [this]; exact Bool.false_ne_true)]
  have hnan : (df.filter rowHasNan).map nanOutRow
      = (df.filter rowHasNan).map (fun r =>
          if rowHasNan r then nanOutRow r else processRow s tables r) := by
    refine (List.map_congr_left ?_).symm
    intro r hr
    rw [if_pos (List.of_mem_filter hr)]
  have hpart : List.Perm
      (df.filter (fun r => !rowHasNan r) ++ df.filter rowHasNan) df := by
    have := List.filter_append_perm (fun r => !rowHasNan r) df
    simpa [Bool.not_not] using this
  have hperm : List.Perm
      ((df.filter (fun r => !rowHasNan r)).map (processRow s tables)
        ++ (df.filter rowHasNan).map nanOutRow)
      (df.map (fun r =>
        if rowHasNan r then nanOutRow r else processRow s tables r)) := by
    rw [hvalid, hnan, ← List.map_append]
    exact hpart.map _
  have hsortPerm : List.Perm (addEfficiencies s tables df).1
      (df.map (fun r =>
        if rowHasNan r then nanOutRow r else processRow s tables r)) :=
    (sortByIdx_perm _).trans hperm
  have hstrict₂ : (df.map (fun r =>
      if rowHasNan r then nanOutRow r else processRow s tables r)).Pairwise
        (fun a b => a.idx < b.idx) := by
    rw [List.pairwise_map]
    refine hsorted.imp ?_
    intro a b hab
    rw [outRow_idx_if, outRow_idx_if]
    exact hab
  have hnodup₂ : ((df.map (fun r =>
      if rowHasNan r then nanOutRow r else processRow s tables r)).map
        OutRow.idx).Nodup := by
    have hmapidx : ((df.map (fun r =>
        if rowHasNan r then nanOutRow r else processRow s tables r)).map
          OutRow.idx) = df.map RefRow.idx := by
      rw [List.map_map]
      exact List.map_congr_left (fun r _ => outRow_idx_if s tables r)
    rw [hmapidx]
    show (df.map RefRow.idx).Pairwise (· ≠ ·)
    rw [List.pairwise_map]
    exact hsorted.imp (fun {x y} h => Nat.ne_of_lt h)
  have hnodup₁ : ((addEfficiencies s tables df).1.map OutRow.idx).Nodup :=
    ((hsortPerm.map OutRow.idx).nodup_iff).mpr hnodup₂
  have hne₁ : (addEfficiencies s tables df).1.Pairwise
      (fun a b => a.idx ≠ b.idx) := List.pairwise_map.mp hnodup₁
  have hle₁ : (addEfficiencies s tables df).1.Pairwise
      (fun a b => a.idx ≤ b.idx) := sortByIdx_sorted _
  have hstrict₁ : (addEfficiencies s tables df).1.Pairwise
      (fun a b => a.idx < b.idx) :=
    (hle₁.and hne₁).imp (fun {x y} h => lt_of_le_of_ne h.1 h.2)
  haveI : IsAntisymm OutRow (fun a b => a.idx < b.idx) :=
    ⟨fun a b h1 h2 => absurd (h1.trans h2) (lt_irrefl _)⟩
  exact List.eq_of_perm_of_sorted hsortPerm hstrict₁ hstrict₂

/-- C6: `add_efficiencies` keeps every input row — rows with a missing
value are excluded from efficiency assignment but re-merged in the
original row order with missing-value efficiency columns — and the
reported out-of-range fraction is exactly the number of rows with a
missing index divided by the number of all rows. -/
theorem C6_addEfficiencies_preserves_rows (s : ℚ → ℚ) (tables : EffTables)
    (df : List RefRow) (hsorted : df.Pairwise (fun a b => a.idx < b.idx)) :
    (addEfficiencies s tables df).1
      = df.map (fun r =>
          if rowHasNan r then nanOutRow r else processRow s tables r) ∧
    (addEfficiencies s tables df).2
      = ((df.filter rowHasNan).length : ℚ) / (df.length : ℚ) := by
  have htable := addEfficiencies_table_eq s tables df hsorted
  refine ⟨htable, ?_⟩
  have hlen : (addEfficiencies s tables df).1.length = df.length := by
    rw [htable, List.length_map]
  show ((df.filter rowHasNan).length : ℚ)
      / (((sortByIdx _).length : Nat) : ℚ) = _
  have : (sortByIdx ((df.filter (fun r => !rowHasNan r)).map
      (processRow s tables) ++ (df.filter rowHasNan).map nanOutRow)).length
        = df.length := hlen
  rw [this]

/-- Witness instantiating `C6_addEfficiencies_preserves_rows` on a
two-row table whose second row is out of range. -/
theorem C6_addEfficiencies_preserves_rows_witness :
    ([⟨0, [some 0]⟩, ⟨1, [none]⟩] : List RefRow).Pairwise
        (fun a b => a.idx < b.idx) ∧
    ((addEfficiencies (fun q => q) [([fin 2], [fin 3])]
        [⟨0, [some 0]⟩, ⟨1, [none]⟩]).1
      = ([⟨0, [some 0]⟩, ⟨1, [none]⟩] : List RefRow).map (fun r =>
          if rowHasNan r then nanOutRow r
          else processRow (fun q => q) [([fin 2], [fin 3])] r) ∧
    (addEfficiencies (fun q => q) [([fin 2], [fin 3])]
        [⟨0, [some 0]⟩, ⟨1, [none]⟩]).2
      = ((([⟨0, [some 0]⟩, ⟨1, [none]⟩] : List RefRow).filter
          rowHasNan).length : ℚ)
        / ((([⟨0, [some 0]⟩, ⟨1, [none]⟩] : List RefRow).length : Nat) : ℚ)) :=
  ⟨by decide,
    C6_addEfficiencies_preserves_rows (fun q => q) [([fin 2], [fin 3])]
      [⟨0, [some 0]⟩, ⟨1, [none]⟩] (by decide)⟩

/-- C4: for a row with complete flat indices the combined per-event
efficiency is the product over prefixes of the per-prefix efficiencies
gathered at each prefix's flat index, and the combined absolute
uncertainty equals `sqrt( Σ (uncertainty_i / efficiency_i)^2 )`
multiplied by the combined efficiency (the code multiplies the square
root by each per-prefix efficiency in turn; the two agree by
associativity of the exact-payload product). -/
theorem C4_combined_efficiency_error (s : ℚ → ℚ) (tables : EffTables)
    (df : List RefRow) (r : RefRow)
    (hsorted : df.Pairwise (fun a b => a.idx < b.idx))
    (hmem : r ∈ df) (hcomplete : rowHasNan r = false) :
    processRow s tables r ∈ (addEfficiencies s tables df).1 ∧
    (processRow s tables r).eff
      = some ((List.zipWith (fun tb b => tb.1.getD b nan) tables
          (r.bins.map (fun o => o.getD 0))).foldl fmul (fin 1)) ∧
    (processRow s tables r).err
      = some (fmul
          (fsqrt s ((List.zipWith (fun er ef => fsq (fdiv er ef))
            (List.zipWith (fun tb b => tb.2.getD b nan) tables
              (r.bins.map (fun o => o.getD 0)))
            (List.zipWith (fun tb b => tb.1.getD b nan) tables
              (r.bins.map (fun o => o.getD 0)))).foldl fadd (fin 0)))
          ((List.zipWith (fun tb b => tb.1.getD b nan) tables
            (r.bins.map (fun o => o.getD 0))).foldl fmul (fin 1))) := by
  refine ⟨?_, rfl, ?_⟩
  · rw [addEfficiencies_table_eq s tables df hsorted]
    have : processRow s tables r
        = (if rowHasNan r then nanOutRow r else processRow s tables r) := by
      rw [if_neg (by rw [hcomplete]; exact Bool.false_ne_true)]
    rw [this]
    exact List.mem_map_of_mem _ hmem
  · show some _ = some _
    rw [foldl_fmul_from]

/-- Witness instantiating `C4_combined_efficiency_error` on a one-row
table with two prefixes. -/
theorem C4_combined_efficiency_error_witness :
    ([⟨0, [some 0, some 1]⟩] : List RefRow).Pairwise
        (fun a b => a.idx < b.idx) ∧
    (⟨0, [some 0, some 1]⟩ : RefRow) ∈ ([⟨0, [some 0, some 1]⟩] : List RefRow) ∧
    rowHasNan ⟨0, [some 0, some 1]⟩ = false ∧
    processRow (fun q => q) [([fin 2], [fin 3]), ([fin 4, fin 5], [fin 6, fin 7])]
        ⟨0, [some 0, some 1]⟩
      ∈ (addEfficiencies (fun q => q)
          [([fin 2], [fin 3]), ([fin 4, fin 5], [fin 6, fin 7])]
          [⟨0, [some 0, some 1]⟩]).1 :=
  ⟨by decide, by decide, by decide,
    (C4_combined_efficiency_error (fun q => q)
      [([fin 2], [fin 3]), ([fin 4, fin 5], [fin 6, fin 7])]
      [⟨0, [some 0, some 1]⟩] ⟨0, [some 0, some 1]⟩
      (by decide) (by decide) (by decide)).1⟩

/-! ## Binning registry (`binning.get_binning`, C8)

`binnings` is a dict of dicts `{particle: {variable: {"bin_edges":
edges}}}` (the inner one-key `"bin_edges"` wrapper is flattened to the
edge list here).  `get_binning` tries the exact `(particle, variable)`
pair, then retries once with the particle name stripped of everything
from its first `"_"` on; on failure it logs an error message naming both
values and raises a bare `KeyError` (a `LookupError` subclass carrying no
arguments). -/

/-- Generic string-keyed dict lookup (first match). -/
def sdictFind {α : Type} : List (String × α) → String → Option α
  | [], _ => none
  | p :: rest, k => if p.1 = k then some p.2 else sdictFind rest k

/-- The registry: particle → variable → bin edges. -/
abbrev Binnings := List (String × List (String × List ℚ))

/-- `particle in binnings and variable in binnings[particle]`, returning
`binnings[particle][variable]["bin_edges"]`. -/
def lookupBinning (reg : Binnings) (particle varName : String) :
    Option (List ℚ) :=
  match sdictFind reg particle with
  | none => none
  | some vars => sdictFind vars varName

/-- `particle.split("_", 1)[0]`: the head of the particle name up to the
first underscore. -/
def stripParticle (particle : String) : String :=
  String.mk (particle.data.takeWhile (fun c => c ≠ '_'))

/-- The failure mode of `get_binning`: the arguments of the raised
`KeyError` (there are none — the `raise KeyError` is bare) and the line
emitted to the error log. -/
structure GBFailure where
  excArgs : List String
  logged : String
deriving DecidableEq

/-- Embedding of `binning.get_binning` (the `verbose`/`quiet` flags only
gate logging). -/
def getBinning (reg : Binnings) (particle varName : String) :
    Except GBFailure (List ℚ) :=
  match lookupBinning reg particle varName with
  | some edges => Except.ok edges
  | none =>
    match lookupBinning reg (stripParticle particle) varName with
    | some edges => Except.ok edges
    | none => Except.error
        { excArgs := [],
          logged := "No '" ++ varName ++ "' binning defined for particle "
            ++ particle }

/-- `p_binning` for Pi, K, P and e: two detector thresholds, then
`np.linspace(19000, 100000, 16)` (step 5400, exact in binary). -/
def pBinningPiKPe : List ℚ :=
  [3000, 9300, 15600, 19000, 24400, 29800, 35200, 40600, 46000, 51400,
   56800, 62200, 67600, 73000, 78400, 83800, 89200, 94600, 100000]

/-- `p_binning` for Mu. -/
def pBinningMu : List ℚ :=
  [3000, 6000, 8000, 10000, 12000, 14500, 17500, 21500, 27000, 32000,
   40000, 60000, 70000, 100000]

/-- `eta_binning`: `np.linspace(1.5, 5.0, 5)` (exact in binary). -/
def etaBinning : List ℚ := [3 / 2, 19 / 8, 13 / 4, 33 / 8, 5]

/-- `ntracks_binning`. -/
def ntracksBinning : List ℚ := [0, 50, 200, 300, 500]

/-- `nspdhits_binning`. -/
def nspdhitsBinning : List ℚ := [0, 200, 400, 600, 800, 1000]

/-- `trchi2_binning`: `np.linspace(0.0, 3.0, 4)`. -/
def trchi2Binning : List ℚ := [0, 1, 2, 3]

/-- The nine per-particle variable entries shared by every particle, with
the particle's momentum binning. -/
def particleVars (p : List ℚ) : List (String × List ℚ) :=
  [("P", p), ("Brunel_P", p), ("ETA", etaBinning), ("Brunel_ETA", etaBinning),
   ("nTracks", ntracksBinning), ("nTracks_Brunel", ntracksBinning),
   ("nSPDhits", nspdhitsBinning), ("nSPDhits_Brunel", nspdhitsBinning),
   ("TRCHI2NDOF", trchi2Binning)]

/-- The default `binnings` registry of `binning.py`, in definition
order. -/
def defaultBinnings : Binnings :=
  [("Pi", particleVars pBinningPiKPe), ("K", particleVars pBinningPiKPe),
   ("Mu", particleVars pBinningMu), ("P", particleVars pBinningPiKPe),
   ("e", particleVars pBinningPiKPe)]

/-- C8 (amended): `get_binning` returns the exact-match binning if
registered, otherwise retries once with the particle name stripped of its
first `"_"`-delimited suffix (`"K_DsPhi"` → `"K"`); if that also fails it
logs an error message naming both the missing particle and the missing
variable and raises a bare `LookupError` (`KeyError` with no arguments —
the exception object itself carries no content); it never invents a
silent default binning. -/
theorem C8_getBinning_lookup (reg : Binnings) (particle varName : String) :
    (∀ edges, lookupBinning reg particle varName = some edges →
      getBinning reg particle varName = Except.ok edges) ∧
    (lookupBinning reg particle varName = none →
      ∀ edges, lookupBinning reg (stripParticle particle) varName = some edges →
        getBinning reg particle varName = Except.ok edges) ∧
    (lookupBinning reg particle varName = none →
      lookupBinning reg (stripParticle particle) varName = none →
      getBinning reg particle varName = Except.error
        { excArgs := [],
          logged := "No '" ++ varName ++ "' binning defined for particle "
            ++ particle }) ∧
    stripParticle "K_DsPhi" = "K" := by
  refine ⟨?_, ?_, ?_, by decide⟩
  · intro edges h
    rw [getBinning, h]
  · intro h1 edges h2
    rw [getBinning, h1, h2]
  · intro h1 h2
    rw [getBinning, h1, h2]

/-- C8 counterexample to the claim as stated: on a pair that is missing
even after suffix stripping, the raised `LookupError` is a bare
`KeyError` whose argument list is empty — its content names neither the
particle nor the variable (only the separately logged message does). -/
theorem C8_counterexample :
    getBinning defaultBinnings "K" "FOO"
      = Except.error
          { excArgs := [],
            logged := "No 'FOO' binning defined for particle K" } ∧
    (GBFailure.excArgs
      { excArgs := [],
        logged := "No 'FOO' binning defined for particle K" }) = [] := by
  constructor
  · rfl
  · rfl

/-- Witness instantiating `C8_getBinning_lookup`: `"K_DsPhi"` has no
binning of its own, so the `"K"` momentum binning is returned. -/
theorem C8_getBinning_lookup_witness :
    lookupBinning defaultBinnings "K_DsPhi" "P" = none ∧
    lookupBinning defaultBinnings (stripParticle "K_DsPhi") "P"
      = some pBinningPiKPe ∧
    getBinning defaultBinnings "K_DsPhi" "P" = Except.ok pBinningPiKPe :=
  ⟨by rfl, by rfl,
    (C8_getBinning_lookup defaultBinnings "K_DsPhi" "P").2.1 (by rfl)
      pBinningPiKPe (by rfl)⟩

end PidCalib
